import Mathlib

/-!
Verification of the doom/dagger DAWG library (src/include/dagger.hpp).

The C++ code builds a minimal acyclic deterministic finite automaton from a
strictly ascending dictionary, following Daciuk et al.'s incremental
construction, and answers membership queries by walking the transition graph.

Shallow embedding conventions:
* Vertices live in an append-only arena (a list of vertex records); an arena
  index models a raw vertex pointer.  The root vertex is arena index 0
  (the separately owned root_vertex_ of the C++ class).
* A vertex's transition table (std::map, ordered by label) is a key-sorted
  association list of (label, target-index) pairs; point assignment
  (operator[]) is an ordered insert-or-assign.
* The unminimized path (std::stack of unminimized_vertex) is a list with the
  top of the stack first; each entry is (vertex index, edge_from_parent).
* The registry (std::set of canonical vertices) is a list of arena indices;
  lookup by equivalence scans for an index whose record equals the probe's
  record.  Two C++ vertices compare equivalent under details::vertex's
  operator< exactly when they have the same accepting flag and the same
  (label, target-pointer) sequence, which for arena indices is record
  equality.
* Bytes are modelled as natural numbers; words are lists of bytes.
-/

namespace doom

/-- A word of the dictionary: a list of byte labels. -/
abbrev Word := List Nat

/-- Strict byte-wise lexicographic order on words (the sortedness
precondition on the input dictionary). -/
def lex_lt : Word → Word → Bool
  | _, [] => false
  | [], _ :: _ => true
  | a :: as, b :: bs => a < b || (a == b && lex_lt as bs)

/-- The whole input sequence is strictly ascending. -/
def sorted_words : List Word → Bool
  | [] => true
  | [_] => true
  | w1 :: w2 :: t => lex_lt w1 w2 && sorted_words (w2 :: t)

/-- Length of the longest common prefix of two words: the position computed
by std::mismatch in dagger::insert. -/
def common_prefix_len : Word → Word → Nat
  | a :: as, b :: bs => if a = b then common_prefix_len as bs + 1 else 0
  | _, _ => 0

/-- details::vertex: an ordered transition table (label to arena index of the
target) plus an accepting flag. -/
structure vertex where
  edges : List (Nat × Nat)
  is_accepting : Bool
deriving DecidableEq

/-- Point lookup in a transition table (std::map::find). -/
def lookupE : List (Nat × Nat) → Nat → Option Nat
  | [], _ => none
  | (a, b) :: t, k => if k = a then some b else lookupE t k

/-- Ordered insert-or-assign in a transition table (std::map::operator[]
followed by assignment). -/
def insertEdge : List (Nat × Nat) → Nat → Nat → List (Nat × Nat)
  | [], k, v => [(k, v)]
  | (a, b) :: t, k, v =>
    if k < a then (k, v) :: (a, b) :: t
    else if k = a then (k, v) :: t
    else (a, b) :: insertEdge t k v

/-- Read an arena slot (dereference a vertex pointer). Out-of-range reads
return an inert empty vertex; the construction never performs them. -/
def getV : List vertex → Nat → vertex
  | [], _ => ⟨[], false⟩
  | v :: _, 0 => v
  | _ :: t, n + 1 => getV t n

/-- Overwrite an arena slot (mutate the pointed-to vertex). -/
def setV : List vertex → Nat → vertex → List vertex
  | [], _, _ => []
  | _ :: t, 0, x => x :: t
  | v :: t, n + 1, x => v :: setV t n x

/-- parent->edges()[lab] = target. -/
def update_edge (A : List vertex) (i lab target : Nat) : List vertex :=
  setV A i ⟨insertEdge (getV A i).edges lab target, (getV A i).is_accepting⟩

/-- v->mark_word_end(). -/
def mark_end (A : List vertex) (i : Nat) : List vertex :=
  setV A i ⟨(getV A i).edges, true⟩

/-- The dagger class state: previous word, vertex arena (root at index 0),
unminimized path (top first), and the registry of minimized vertices. -/
structure dagger where
  prev_word : Word
  arena : List vertex
  unminimized_path : List (Nat × Nat)
  minimized_vertices : List Nat
deriving DecidableEq

/-- The vertex the next operation attaches to: the top of the unminimized
path, or the root when the path is empty. -/
def below : List (Nat × Nat) → Nat
  | [] => 0
  | (p, _) :: _ => p

/-- minimized_vertices_.find(v): look for a registry entry equivalent to the
probed vertex. -/
def find_equiv (A : List vertex) (reg : List Nat) (v : Nat) : Option Nat :=
  reg.find? (fun q => decide (getV A q = getV A v))

/-- Redirect the popped entry's parent (next unminimized vertex, or the root
when the path is now empty) to the canonical vertex q at label c. -/
def redirect (A : List vertex) (rest : List (Nat × Nat)) (c q : Nat) : List vertex :=
  match rest with
  | [] => update_edge A 0 c q
  | (p, _) :: _ => update_edge A p c q

/-- The loop of dagger::minimize_until, iterating on the unminimized path
(top first) and threading arena and registry. -/
def minimize_go (u : Nat) :
    List (Nat × Nat) → List vertex → List Nat →
    List vertex × List Nat × List (Nat × Nat)
  | [], A, reg => (A, reg, [])
  | (v, c) :: rest, A, reg =>
    if rest.length + 1 ≤ u then (A, reg, (v, c) :: rest)
    else
      match find_equiv A reg v with
      | some q => minimize_go u rest (redirect A rest c q) reg
      | none => minimize_go u rest A (v :: reg)

/-- dagger::minimize_until. -/
def minimize_until (d : dagger) (u : Nat) : dagger :=
  let r := minimize_go u d.unminimized_path d.arena d.minimized_vertices
  ⟨d.prev_word, r.1, r.2.2, r.2.1⟩

/-- dagger::finish_minimization. -/
def finish_minimization (d : dagger) : dagger :=
  minimize_until d 0

/-- The loop of dagger::add_suffix: one fresh vertex per character, each
wired to its parent and pushed onto the path; returns the new arena, the new
path, and the vertex holding the end of the word. -/
def add_chain :
    List Nat → Nat → List vertex → List (Nat × Nat) →
    List vertex × List (Nat × Nat) × Nat
  | [], parent, A, path => (A, path, parent)
  | c :: rest, parent, A, path =>
    add_chain rest A.length
      (update_edge (A ++ [⟨[], false⟩]) parent c A.length) ((A.length, c) :: path)

/-- dagger::add_suffix: create the chain for the suffix, then mark the last
vertex (the chain's end, or the attach vertex when the suffix is empty) as a
word end. -/
def add_suffix (d : dagger) (suffix : List Nat) : dagger :=
  let parent := below d.unminimized_path
  let r := add_chain suffix parent d.arena d.unminimized_path
  ⟨d.prev_word, mark_end r.1 r.2.2, r.2.1, d.minimized_vertices⟩

/-- dagger::insert. -/
def insert (d : dagger) (word : Word) : dagger :=
  let cpl := common_prefix_len d.prev_word word
  let d1 := minimize_until d cpl
  let d2 := add_suffix d1 (word.drop cpl)
  ⟨word, d2.arena, d2.unminimized_path, d2.minimized_vertices⟩

/-- A default-constructed dagger: an empty root vertex, empty path, empty
registry, empty previous word. -/
def empty_dagger : dagger := ⟨[], [⟨[], false⟩], [], []⟩

/-- dagger::from_dictionary: insert every word in order, then flush. -/
def from_dictionary (ws : List Word) : dagger :=
  finish_minimization (ws.foldl insert empty_dagger)

/-- The transition walk of dagger::contains, as a pure function on the
arena: follow one edge per character. -/
def walk (A : List vertex) : Nat → Word → Option Nat
  | i, [] => some i
  | i, c :: rest =>
    match lookupE (getV A i).edges c with
    | none => none
    | some j => walk A j rest

/-- Acceptance from a given vertex: walk the word and test the accepting
flag, failing as soon as a lookup fails. -/
def accepts (A : List vertex) : Nat → Word → Bool
  | i, [] => (getV A i).is_accepting
  | i, c :: rest =>
    match lookupE (getV A i).edges c with
    | none => false
    | some j => accepts A j rest

/-- dagger::contains. -/
def contains (d : dagger) (word : Word) : Bool :=
  accepts d.arena 0 word

/-- dagger::contains written as state-threading code: every read passes the
object state along explicitly, returning it with the result.  This mirrors
the method body, which only ever reads the state. -/
def contains_go (d : dagger) : Nat → Word → Bool × dagger
  | i, [] => ((getV d.arena i).is_accepting, d)
  | i, c :: rest =>
    match lookupE (getV d.arena i).edges c with
    | none => (false, d)
    | some j => contains_go d j rest

/-- The state-threading form of dagger::contains. -/
def contains_st (d : dagger) (word : Word) : Bool × dagger :=
  contains_go d 0 word

/-- Fuel-counted form of the minimize_until loop: one unit of fuel per popped
entry, none when the loop exits; the unspent fuel is returned.  Used to bound
the number of steps the loop takes on arbitrary (even unsorted) input. -/
def minimize_go_fuel :
    Nat → Nat → List (Nat × Nat) → List vertex → List Nat →
    Option (Nat × List vertex × List Nat × List (Nat × Nat))
  | fuel, _, [], A, reg => some (fuel, A, reg, [])
  | fuel, u, (v, c) :: rest, A, reg =>
    if rest.length + 1 ≤ u then some (fuel, A, reg, (v, c) :: rest)
    else
      match fuel with
      | 0 => none
      | fuel + 1 =>
        match find_equiv A reg v with
        | some q => minimize_go_fuel fuel u rest (redirect A rest c q) reg
        | none => minimize_go_fuel fuel u rest A (v :: reg)

/-- Fuel-counted form of the add_suffix loop: one unit of fuel per created
vertex; the unspent fuel is returned. -/
def add_chain_fuel :
    Nat → List Nat → Nat → List vertex → List (Nat × Nat) →
    Option (Nat × List vertex × List (Nat × Nat) × Nat)
  | fuel, [], parent, A, path => some (fuel, A, path, parent)
  | 0, _ :: _, _, _, _ => none
  | fuel + 1, c :: rest, parent, A, path =>
    add_chain_fuel fuel rest A.length
      (update_edge (A ++ [⟨[], false⟩]) parent c A.length) ((A.length, c) :: path)

/-- Fuel-counted dagger::insert. -/
def insert_fuel (fuel : Nat) (d : dagger) (word : Word) :
    Option (Nat × dagger) :=
  match minimize_go_fuel fuel (common_prefix_len d.prev_word word)
      d.unminimized_path d.arena d.minimized_vertices with
  | none => none
  | some (fuel2, A, reg, path) =>
    match add_chain_fuel fuel2 (word.drop (common_prefix_len d.prev_word word))
        (below path) A path with
    | none => none
    | some (fuel3, A2, path2, last) =>
      some (fuel3, ⟨word, mark_end A2 last, path2, reg⟩)

/-- Fuel-counted construction: thread one shared fuel supply through every
insertion and the final flush. -/
def from_dictionary_fuel_go (fuel : Nat) (d : dagger) :
    List Word → Option dagger
  | [] =>
    match minimize_go_fuel fuel 0 d.unminimized_path d.arena d.minimized_vertices with
    | none => none
    | some (_, A, reg, path) => some ⟨d.prev_word, A, path, reg⟩
  | w :: ws =>
    match insert_fuel fuel d w with
    | none => none
    | some (fuel2, d2) => from_dictionary_fuel_go fuel2 d2 ws

/-- Fuel-counted dagger::from_dictionary. -/
def from_dictionary_fuel (fuel : Nat) (ws : List Word) : Option dagger :=
  from_dictionary_fuel_go fuel empty_dagger ws

/-- Total number of bytes in the dictionary. -/
def total_len (ws : List Word) : Nat :=
  (ws.map List.length).sum

/-- Decidable byte-wise test that p is an initial segment of w. -/
def pref_of : Word → Word → Bool
  | [], _ => true
  | _ :: _, [] => false
  | a :: p, b :: w => a == b && pref_of p w

/-- Modelled from the spec: the left residual of the dictionary language by
the string p, enumerated in the dictionary's order. -/
def left_residual (ws : List Word) (p : Word) : List Word :=
  ws.filterMap (fun w => if pref_of p w then some (w.drop p.length) else none)

/-- Modelled from the spec: the number of states of the theoretical minimal
(partial) deterministic finite automaton accepting exactly the dictionary
language.  By Myhill-Nerode this is the number of distinct nonempty left
residuals of the language, together with the start state; the nonempty
residuals are exactly the residuals by prefixes of dictionary words. -/
def minimal_dfa_states (ws : List Word) : Nat :=
  (([] :: ws.flatMap (fun w => w.inits)).map (left_residual ws)).dedup.length

/-! ### Invariant definitions used by the verification -/

/-- Keys of a transition table are strictly increasing (the std::map order
invariant).  All tables the construction builds satisfy this. -/
def edges_sorted (l : List (Nat × Nat)) : Prop :=
  List.Pairwise (fun e f => e.1 < f.1) l

/-- Well-formedness of the unminimized path, read from the root upward
(the list argument is the reversed stack, bottom entry first).  Each parent
has the expected transition to its path child, the path child's label bounds
every label of the parent, and every non-child transition of the parent
already points into the registry. -/
def chainOK (A : List vertex) (reg : List Nat) : Nat → List (Nat × Nat) → Prop
  | _, [] => True
  | p, (q, c) :: t =>
    lookupE (getV A p).edges c = some q ∧
    (∀ e ∈ (getV A p).edges, e.1 ≤ c) ∧
    (∀ e ∈ (getV A p).edges, e.1 ≠ c → e.2 ∈ reg) ∧
    chainOK A reg q t

/-- Final vertex of a root-upward chain started at p. -/
def endOf (p : Nat) : List (Nat × Nat) → Nat
  | [] => p
  | (q, _) :: t => endOf q t

/-- The vertices whose records the chainOK predicate inspects: every chain
vertex except the last. -/
def chain_refs (p : Nat) : List (Nat × Nat) → List Nat
  | [] => []
  | (q, _) :: t => p :: chain_refs q t

/-- The construction invariant tying together arena, unminimized path (top
first) and registry. -/
structure Inv (A : List vertex) (path : List (Nat × Nat)) (reg : List Nat) : Prop where
  root_lt : 0 < A.length
  path_lt : ∀ p ∈ path.map Prod.fst, p < A.length
  reg_lt : ∀ q ∈ reg, q < A.length
  edge_lt : ∀ i : Nat, ∀ e ∈ (getV A i).edges, e.2 < A.length
  esorted : ∀ i : Nat, edges_sorted (getV A i).edges
  chain : chainOK A reg 0 path.reverse
  top_closed : ∀ e ∈ (getV A (below path)).edges, e.2 ∈ reg
  reg_closed : ∀ q ∈ reg, ∀ e ∈ (getV A q).edges, e.2 ∈ reg
  reg_nodup : reg.Nodup
  reg_not_root : 0 ∉ reg
  reg_path_disj : ∀ q ∈ reg, q ∉ path.map Prod.fst
  path_nodup : (path.map Prod.fst).Nodup
  root_not_path : 0 ∉ path.map Prod.fst
  reg_lang : ∀ q ∈ reg, ∃ w, accepts A q w = true
  reg_reach : ∀ q ∈ reg, ∃ s, walk A 0 s = some q
  reg_distinct : ∀ q1 ∈ reg, ∀ q2 ∈ reg, q1 ≠ q2 → ∃ w, accepts A q1 w ≠ accepts A q2 w

/-- The between-insertions state description: the invariant, the path spells
the previous word, the previous word is the last word inserted so far, a
nonempty path has a fresh accepting top, an empty path means an edge-free
root, and the automaton accepts exactly the words inserted so far. -/
structure Good (d : dagger) (ws : List Word) : Prop where
  inv : Inv d.arena d.unminimized_path d.minimized_vertices
  spell : d.unminimized_path.map Prod.snd = d.prev_word.reverse
  prev_last : d.prev_word = ws.getLastD []
  top_fresh : d.unminimized_path ≠ [] →
    getV d.arena (below d.unminimized_path) = ⟨[], true⟩
  root_edges : d.unminimized_path = [] → (getV d.arena 0).edges = []
  lang : ∀ s, accepts d.arena 0 s = true ↔ s ∈ ws

/-! ### Basic lemmas: arena access -/

theorem length_setV (A : List vertex) (i : Nat) (x : vertex) :
    (setV A i x).length = A.length := by
  induction A generalizing i with
  | nil => rfl
  | cons v t ih => cases i with
    | zero => rfl
    | succ n => simp [setV, ih]

theorem getV_setV_self (A : List vertex) (i : Nat) (x : vertex)
    (h : i < A.length) : getV (setV A i x) i = x := by
  induction A generalizing i with
  | nil => simp at h
  | cons v t ih => cases i with
    | zero => rfl
    | succ n => exact ih n (by simpa using h)

theorem getV_setV_ne (A : List vertex) (i j : Nat) (x : vertex)
    (h : j ≠ i) : getV (setV A i x) j = getV A j := by
  induction A generalizing i j with
  | nil => rfl
  | cons v t ih => cases i with
    | zero => cases j with
      | zero => exact absurd rfl h
      | succ m => rfl
    | succ n => cases j with
      | zero => rfl
      | succ m => exact ih n m (by omega)

theorem getV_append_lt (A B : List vertex) (i : Nat) (h : i < A.length) :
    getV (A ++ B) i = getV A i := by
  induction A generalizing i with
  | nil => simp at h
  | cons v t ih => cases i with
    | zero => rfl
    | succ n => exact ih n (by simpa using h)

theorem getV_append_len (A : List vertex) (x : vertex) :
    getV (A ++ [x]) A.length = x := by
  induction A with
  | nil => rfl
  | cons v t ih => simpa using ih

theorem getV_default (A : List vertex) (i : Nat) (h : A.length ≤ i) :
    getV A i = ⟨[], false⟩ := by
  induction A generalizing i with
  | nil => rfl
  | cons v t ih => cases i with
    | zero => simp at h
    | succ n => exact ih n (by simpa using h)

theorem setV_default (A : List vertex) (i : Nat) (x : vertex) (h : A.length ≤ i) :
    setV A i x = A := by
  induction A generalizing i with
  | nil => rfl
  | cons v t ih => cases i with
    | zero => simp at h
    | succ n => simp [setV, ih n (by simpa using h)]

theorem setV_getV_self (A : List vertex) (i : Nat) :
    setV A i (getV A i) = A := by
  induction A generalizing i with
  | nil => rfl
  | cons v t ih => cases i with
    | zero => rfl
    | succ n => simp [setV, getV, ih n]

/-! ### Basic lemmas: transition tables -/

theorem lookupE_insertEdge_self (l : List (Nat × Nat)) (k v : Nat) :
    lookupE (insertEdge l k v) k = some v := by
  induction l with
  | nil => simp [insertEdge, lookupE]
  | cons e t ih =>
    obtain ⟨a, b⟩ := e
    by_cases h1 : k < a
    · simp [insertEdge, h1, lookupE]
    · by_cases h2 : k = a
      · simp [insertEdge, h1, h2, lookupE]
      · simp [insertEdge, h1, h2, lookupE, ih]

theorem lookupE_insertEdge_ne (l : List (Nat × Nat)) (k v k' : Nat)
    (h : k' ≠ k) : lookupE (insertEdge l k v) k' = lookupE l k' := by
  induction l with
  | nil => simp [insertEdge, lookupE, h]
  | cons e t ih =>
    obtain ⟨a, b⟩ := e
    by_cases h1 : k < a
    · simp [insertEdge, h1, lookupE, h]
    · by_cases h2 : k = a
      · subst h2
        simp [insertEdge, h1, lookupE, h]
      · by_cases h3 : k' = a
        · simp [insertEdge, h1, h2, lookupE, h3]
        · simp [insertEdge, h1, h2, lookupE, h3, ih]

theorem mem_insertEdge {l : List (Nat × Nat)} {k v : Nat} {e : Nat × Nat}
    (h : e ∈ insertEdge l k v) : e = (k, v) ∨ e ∈ l := by
  induction l with
  | nil => simpa [insertEdge] using h
  | cons f t ih =>
    obtain ⟨a, b⟩ := f
    simp only [insertEdge] at h
    split at h
    · rcases List.mem_cons.mp h with h' | h'
      · exact Or.inl h'
      · exact Or.inr h'
    · split at h
      · rcases List.mem_cons.mp h with h' | h'
        · exact Or.inl h'
        · exact Or.inr (List.mem_cons_of_mem _ h')
      · rcases List.mem_cons.mp h with h' | h'
        · subst h'
          exact Or.inr (List.mem_cons_self _ _)
        · rcases ih h' with h'' | h''
          · exact Or.inl h''
          · exact Or.inr (List.mem_cons_of_mem _ h'')

theorem lookupE_mem {l : List (Nat × Nat)} {k t : Nat}
    (h : lookupE l k = some t) : (k, t) ∈ l := by
  induction l with
  | nil => simp [lookupE] at h
  | cons e r ih =>
    obtain ⟨a, b⟩ := e
    by_cases h1 : k = a
    · subst h1
      simp [lookupE] at h
      simp [h]
    · simp only [lookupE, if_neg h1] at h
      exact List.mem_cons_of_mem _ (ih h)

theorem lookupE_eq_none (l : List (Nat × Nat)) (k : Nat)
    (h : ∀ e ∈ l, e.1 ≠ k) : lookupE l k = none := by
  induction l with
  | nil => rfl
  | cons e t ih =>
    obtain ⟨a, b⟩ := e
    have ha : a ≠ k := h (a, b) (by simp)
    have hka : ¬ k = a := fun hk => ha hk.symm
    simp only [lookupE, if_neg hka]
    exact ih (fun e he => h e (List.mem_cons_of_mem _ he))

theorem sorted_insertEdge {l : List (Nat × Nat)} (k v : Nat)
    (h : edges_sorted l) : edges_sorted (insertEdge l k v) := by
  induction l with
  | nil => simp [insertEdge, edges_sorted]
  | cons e t ih =>
    obtain ⟨a, b⟩ := e
    rw [edges_sorted, List.pairwise_cons] at h
    obtain ⟨ha, ht⟩ := h
    simp only [insertEdge]
    split
    · rename_i h1
      rw [edges_sorted, List.pairwise_cons]
      refine ⟨?_, ?_⟩
      · intro f hf
        rcases List.mem_cons.mp hf with h' | h'
        · simp [h']
          exact h1
        · exact lt_trans h1 (ha f h')
      · exact List.pairwise_cons.mpr ⟨ha, ht⟩
    · split
      · rename_i h1 h2
        subst h2
        rw [edges_sorted, List.pairwise_cons]
        exact ⟨ha, ht⟩
      · rename_i h1 h2
        rw [edges_sorted, List.pairwise_cons]
        refine ⟨?_, ih ht⟩
        intro f hf
        rcases mem_insertEdge hf with h' | h'
        · subst h'
          simp
          omega
        · exact ha f h'

theorem mem_insertEdge_sorted {l : List (Nat × Nat)} {k v : Nat} {e : Nat × Nat}
    (hs : edges_sorted l) (h : e ∈ insertEdge l k v) :
    e = (k, v) ∨ (e ∈ l ∧ e.1 ≠ k) := by
  induction l with
  | nil => simpa [insertEdge] using h
  | cons f t ih =>
    obtain ⟨a, b⟩ := f
    rw [edges_sorted, List.pairwise_cons] at hs
    obtain ⟨ha, ht⟩ := hs
    simp only [insertEdge] at h
    split at h
    · rename_i h1
      rcases List.mem_cons.mp h with h' | h'
      · exact Or.inl h'
      · refine Or.inr ⟨h', ?_⟩
        rcases List.mem_cons.mp h' with h'' | h''
        · subst h''
          simp
          omega
        · have := ha e h''
          omega
    · split at h
      · rename_i h1 h2
        subst h2
        rcases List.mem_cons.mp h with h' | h'
        · exact Or.inl h'
        · have := ha e h'
          exact Or.inr ⟨List.mem_cons_of_mem _ h', by omega⟩
      · rename_i h1 h2
        rcases List.mem_cons.mp h with h' | h'
        · subst h'
          refine Or.inr ⟨List.mem_cons_self _ _, ?_⟩
          simp
          omega
        · rcases ih ht h' with h'' | h''
          · exact Or.inl h''
          · exact Or.inr ⟨List.mem_cons_of_mem _ h''.1, h''.2⟩

theorem keys_insertEdge_mem {l : List (Nat × Nat)} {k t : Nat} (v : Nat)
    (hs : edges_sorted l) (h : lookupE l k = some t) :
    (insertEdge l k v).map Prod.fst = l.map Prod.fst := by
  induction l with
  | nil => simp [lookupE] at h
  | cons e r ih =>
    obtain ⟨a, b⟩ := e
    rw [edges_sorted, List.pairwise_cons] at hs
    obtain ⟨ha, hr⟩ := hs
    by_cases h1 : k = a
    · subst h1
      simp [insertEdge, lt_irrefl]
    · simp only [lookupE, if_neg h1] at h
      have hka : ¬ k < a := by
        have := ha _ (lookupE_mem h)
        simp at this
        omega
      simp [insertEdge, hka, h1, ih hr h]

theorem insertEdge_append {l : List (Nat × Nat)} {k : Nat} (v : Nat)
    (h : ∀ e ∈ l, e.1 < k) : insertEdge l k v = l ++ [(k, v)] := by
  induction l with
  | nil => rfl
  | cons e t ih =>
    obtain ⟨a, b⟩ := e
    have ha : a < k := h (a, b) (by simp)
    have h1 : ¬ k < a := by omega
    have h2 : ¬ k = a := by omega
    simp [insertEdge, h1, h2, ih (fun e he => h e (List.mem_cons_of_mem _ he))]

theorem mem_lookupE_sorted {l : List (Nat × Nat)} {k t : Nat}
    (hs : edges_sorted l) (h : (k, t) ∈ l) : lookupE l k = some t := by
  induction l with
  | nil => simp at h
  | cons e r ih =>
    obtain ⟨a, b⟩ := e
    rw [edges_sorted, List.pairwise_cons] at hs
    obtain ⟨ha, hr⟩ := hs
    rcases List.mem_cons.mp h with h' | h'
    · simp only [Prod.mk.injEq] at h'
      simp [lookupE, h'.1, h'.2]
    · have hk : ¬ k = a := by
        have := ha _ h'
        simp at this
        omega
      simp only [lookupE, if_neg hk]
      exact ih hr h'

theorem sorted_lookup_ext {l1 l2 : List (Nat × Nat)}
    (h1 : edges_sorted l1) (h2 : edges_sorted l2)
    (hne : l1 ≠ l2) : ∃ k, lookupE l1 k ≠ lookupE l2 k := by
  induction l1 generalizing l2 with
  | nil =>
    cases l2 with
    | nil => exact absurd rfl hne
    | cons e t =>
      refine ⟨e.1, ?_⟩
      rw [mem_lookupE_sorted h2 (show (e.1, e.2) ∈ e :: t by simp)]
      simp [lookupE]
  | cons e t1 ih =>
    cases l2 with
    | nil =>
      refine ⟨e.1, ?_⟩
      rw [mem_lookupE_sorted h1 (show (e.1, e.2) ∈ e :: t1 by simp)]
      simp [lookupE]
    | cons f t2 =>
      obtain ⟨a, b⟩ := e
      obtain ⟨c, d⟩ := f
      rw [edges_sorted, List.pairwise_cons] at h1 h2
      obtain ⟨ha, ht1⟩ := h1
      obtain ⟨hc, ht2⟩ := h2
      by_cases hac : a = c
      · subst hac
        by_cases hbd : b = d
        · subst hbd
          have htne : t1 ≠ t2 := by
            intro h
            exact hne (by rw [h])
          obtain ⟨k, hk⟩ := ih ht1 ht2 htne
          have hka : ¬ k = a := by
            intro h
            subst h
            have e1 : lookupE t1 k = none :=
              lookupE_eq_none _ _ (fun e he => by have := ha e he; omega)
            have e2 : lookupE t2 k = none :=
              lookupE_eq_none _ _ (fun e he => by have := hc e he; omega)
            rw [e1, e2] at hk
            exact hk rfl
          refine ⟨k, ?_⟩
          simpa [lookupE, hka] using hk
        · refine ⟨a, ?_⟩
          simp [lookupE, hbd]
      · rcases lt_or_gt_of_ne hac with hlt | hlt
        · refine ⟨a, ?_⟩
          have h2n : lookupE t2 a = none :=
            lookupE_eq_none _ _ (fun e he => by have := hc e he; simp at this; omega)
          simp [lookupE, hac, h2n]
        · refine ⟨c, ?_⟩
          have hca : ¬ c = a := by omega
          have h1n : lookupE t1 c = none :=
            lookupE_eq_none _ _ (fun e he => by have := ha e he; simp at this; omega)
          simp [lookupE, hca, h1n]

/-! ### Walks and acceptance -/

theorem accepts_eq_walk (A : List vertex) (i : Nat) (w : Word) :
    accepts A i w =
      ((walk A i w).map (fun x => (getV A x).is_accepting)).getD false := by
  induction w generalizing i with
  | nil => rfl
  | cons c rest ih =>
    rw [accepts, walk]
    cases lookupE (getV A i).edges c with
    | none => rfl
    | some j => exact ih j

theorem walk_append (A : List vertex) (i : Nat) (s t : Word) :
    walk A i (s ++ t) = (walk A i s).bind (fun j => walk A j t) := by
  induction s generalizing i with
  | nil => rfl
  | cons c rest ih =>
    rw [List.cons_append, walk, walk]
    cases lookupE (getV A i).edges c with
    | none => rfl
    | some j => exact ih j

theorem accepts_append (A : List vertex) (i : Nat) (s t : Word) :
    accepts A i (s ++ t) =
      ((walk A i s).map (fun j => accepts A j t)).getD false := by
  induction s generalizing i with
  | nil => rfl
  | cons c rest ih =>
    rw [List.cons_append, accepts, walk]
    cases lookupE (getV A i).edges c with
    | none => rfl
    | some j => exact ih j

theorem accepts_of_getV_eq {A : List vertex} {i j : Nat}
    (h : getV A i = getV A j) (w : Word) : accepts A i w = accepts A j w := by
  cases w with
  | nil => rw [accepts, accepts, h]
  | cons c rest => rw [accepts, accepts, h]

theorem walk_closed {A : List vertex} {reg : List Nat}
    (hreg : ∀ q ∈ reg, ∀ e ∈ (getV A q).edges, e.2 ∈ reg) :
    ∀ (s : Word) (q : Nat), q ∈ reg → ∀ x, walk A q s = some x → x ∈ reg := by
  intro s
  induction s with
  | nil =>
    intro q hq x hx
    rw [walk] at hx
    cases hx
    exact hq
  | cons c rest ih =>
    intro q hq x hx
    rw [walk] at hx
    cases h : lookupE (getV A q).edges c with
    | none => rw [h] at hx; cases hx
    | some j =>
      rw [h] at hx
      exact ih j (hreg q hq _ (lookupE_mem h)) x hx

/-! ### Chain lemmas -/

theorem endOf_append (p : Nat) (L1 L2 : List (Nat × Nat)) :
    endOf p (L1 ++ L2) = endOf (endOf p L1) L2 := by
  induction L1 generalizing p with
  | nil => rfl
  | cons e t ih =>
    obtain ⟨q, c⟩ := e
    rw [List.cons_append, endOf, endOf]
    exact ih q

theorem chainOK_append {A : List vertex} {reg : List Nat}
    {p : Nat} {L1 L2 : List (Nat × Nat)} :
    chainOK A reg p (L1 ++ L2) ↔
      chainOK A reg p L1 ∧ chainOK A reg (endOf p L1) L2 := by
  induction L1 generalizing p with
  | nil => simp [chainOK, endOf]
  | cons e t ih =>
    obtain ⟨q, c⟩ := e
    rw [List.cons_append, chainOK, chainOK, endOf]
    rw [ih]
    tauto

theorem chainOK_mono {A : List vertex} {reg reg' : List Nat}
    (hsub : ∀ x ∈ reg, x ∈ reg') :
    ∀ {L : List (Nat × Nat)} {p : Nat}, chainOK A reg p L → chainOK A reg' p L := by
  intro L
  induction L with
  | nil => intro p h; trivial
  | cons e t ih =>
    obtain ⟨q, c⟩ := e
    intro p h
    obtain ⟨h1, h2, h3, h4⟩ := h
    exact ⟨h1, h2, fun e he hne => hsub _ (h3 e he hne), ih h4⟩

theorem chain_refs_sub {p : Nat} {L : List (Nat × Nat)} :
    ∀ x ∈ chain_refs p L, x = p ∨ x ∈ L.dropLast.map Prod.fst := by
  induction L generalizing p with
  | nil => intro x hx; cases hx
  | cons e t ih =>
    obtain ⟨q, c⟩ := e
    intro x hx
    rw [chain_refs] at hx
    rcases List.mem_cons.mp hx with h | h
    · exact Or.inl h
    · rcases ih x h with h' | h'
      · cases t with
        | nil => cases h
        | cons f r =>
          right
          rw [List.dropLast_cons_of_ne_nil (by simp)]
          rw [List.map_cons]
          simp [h']
      · cases t with
        | nil => simp at h'
        | cons f r =>
          right
          rw [List.dropLast_cons_of_ne_nil (by simp)]
          rw [List.map_cons]
          exact List.mem_cons_of_mem _ h'

theorem chainOK_congr {A A' : List vertex} {reg : List Nat} :
    ∀ {L : List (Nat × Nat)} {p : Nat},
      (∀ x ∈ chain_refs p L, getV A' x = getV A x) →
      chainOK A reg p L → chainOK A' reg p L := by
  intro L
  induction L with
  | nil => intro p _ _; trivial
  | cons e t ih =>
    obtain ⟨q, c⟩ := e
    intro p hc h
    obtain ⟨h1, h2, h3, h4⟩ := h
    have hp : getV A' p = getV A p := hc p (by rw [chain_refs]; exact List.mem_cons_self _ _)
    refine ⟨by rw [hp]; exact h1, by rw [hp]; exact h2, by rw [hp]; exact h3, ?_⟩
    exact ih (fun x hx => hc x (by rw [chain_refs]; exact List.mem_cons_of_mem _ hx)) h4

theorem chainOK_walk {A : List vertex} {reg : List Nat} :
    ∀ {L : List (Nat × Nat)} {p : Nat}, chainOK A reg p L →
      walk A p (L.map Prod.snd) = some (endOf p L) := by
  intro L
  induction L with
  | nil => intro p _; rfl
  | cons e t ih =>
    obtain ⟨q, c⟩ := e
    intro p h
    obtain ⟨h1, _, _, h4⟩ := h
    rw [List.map_cons, walk, h1, endOf]
    exact ih h4

theorem below_eq_endOf (path : List (Nat × Nat)) :
    below path = endOf 0 path.reverse := by
  cases path with
  | nil => rfl
  | cons e rest =>
    obtain ⟨p, c⟩ := e
    rw [below, List.reverse_cons, endOf_append, endOf, endOf]

theorem endOf_mem (p : Nat) (L : List (Nat × Nat)) :
    endOf p L ∈ p :: L.map Prod.fst := by
  induction L generalizing p with
  | nil => exact List.mem_cons_self _ _
  | cons e t ih =>
    obtain ⟨q, c⟩ := e
    rw [endOf, List.map_cons]
    rcases List.mem_cons.mp (ih q) with h | h
    · rw [h]
      exact List.mem_cons_of_mem _ (List.mem_cons_self _ _)
    · exact List.mem_cons_of_mem _ (List.mem_cons_of_mem _ h)

theorem endOf_take_inj {p : Nat} {L : List (Nat × Nat)}
    (h0 : p ∉ L.map Prod.fst) (hnd : (L.map Prod.fst).Nodup) :
    ∀ {k k' : Nat}, k ≤ L.length → k' ≤ L.length →
      endOf p (L.take k) = endOf p (L.take k') → k = k' := by
  induction L generalizing p with
  | nil =>
    intro k k' hk hk' _
    simp at hk hk'
    omega
  | cons e t ih =>
    obtain ⟨q, c⟩ := e
    rw [List.map_cons] at h0 hnd
    have hq : p ≠ q := fun h => h0 (h ▸ List.mem_cons_self _ _)
    have h0' : p ∉ t.map Prod.fst := fun h => h0 (List.mem_cons_of_mem _ h)
    have hqt : q ∉ t.map Prod.fst := (List.nodup_cons.mp hnd).1
    have hndt : (t.map Prod.fst).Nodup := (List.nodup_cons.mp hnd).2
    intro k k' hk hk' he
    cases k with
    | zero =>
      cases k' with
      | zero => rfl
      | succ n =>
        exfalso
        rw [List.take_zero, List.take_succ_cons, endOf, endOf] at he
        have := endOf_mem q (t.take n)
        rw [← he] at this
        rcases List.mem_cons.mp this with h | h
        · exact hq h
        · have hmem : p ∈ (t.map Prod.fst).take n := by
            rw [← List.map_take]
            exact h
          exact h0' (List.mem_of_mem_take hmem)
    | succ n =>
      cases k' with
      | zero =>
        exfalso
        rw [List.take_zero, List.take_succ_cons, endOf, endOf] at he
        have := endOf_mem q (t.take n)
        rw [he] at this
        rcases List.mem_cons.mp this with h | h
        · exact hq h
        · have hmem : p ∈ (t.map Prod.fst).take n := by
            rw [← List.map_take]
            exact h
          exact h0' (List.mem_of_mem_take hmem)
      | succ n' =>
        rw [List.take_succ_cons, List.take_succ_cons, endOf, endOf] at he
        have := ih hqt hndt (by simpa using hk) (by simpa using hk') he
        omega

theorem walk_class {A : List vertex} {reg : List Nat}
    (hreg : ∀ q ∈ reg, ∀ e ∈ (getV A q).edges, e.2 ∈ reg) :
    ∀ (s : Word) (p : Nat) (L : List (Nat × Nat)), chainOK A reg p L →
      (∀ e ∈ (getV A (endOf p L)).edges, e.2 ∈ reg) →
      ∀ x, walk A p s = some x →
        x ∈ reg ∨ ∃ k, k ≤ L.length ∧ s = (L.take k).map Prod.snd ∧
          x = endOf p (L.take k) := by
  intro s
  induction s with
  | nil =>
    intro p L _ _ x hx
    rw [walk] at hx
    cases hx
    exact Or.inr ⟨0, Nat.zero_le _, by simp, by simp [endOf]⟩
  | cons ch rest ih =>
    intro p L hchain htop x hx
    rw [walk] at hx
    cases hlk : lookupE (getV A p).edges ch with
    | none => rw [hlk] at hx; cases hx
    | some j =>
      rw [hlk] at hx
      cases L with
      | nil =>
        have hj : j ∈ reg := htop _ (lookupE_mem hlk)
        exact Or.inl (walk_closed hreg rest j hj x hx)
      | cons e t =>
        obtain ⟨q, c⟩ := e
        obtain ⟨h1, h2, h3, h4⟩ := hchain
        by_cases hch : ch = c
        · subst hch
          have hjq : j = q := by
            rw [hlk] at h1
            exact Option.some.inj h1
          subst hjq
          have htop' : ∀ e ∈ (getV A (endOf j t)).edges, e.2 ∈ reg := by
            rw [endOf] at htop
            exact htop
          rcases ih j t h4 htop' x hx with h | ⟨k, hk, hs, hxe⟩
          · exact Or.inl h
          · refine Or.inr ⟨k + 1, by simpa using hk, ?_, ?_⟩
            · rw [List.take_succ_cons, List.map_cons, hs]
            · rw [List.take_succ_cons, endOf, hxe]
        · have hj : j ∈ reg := h3 _ (lookupE_mem hlk) hch
          exact Or.inl (walk_closed hreg rest j hj x hx)

/-! ### Effect of redirecting one edge to an equivalent vertex -/

theorem getV_update_edge_self {A : List vertex} {par : Nat} (c q : Nat)
    (hpar : par < A.length) :
    getV (update_edge A par c q) par =
      ⟨insertEdge (getV A par).edges c q, (getV A par).is_accepting⟩ := by
  rw [update_edge]
  exact getV_setV_self _ _ _ hpar

theorem getV_update_edge_ne {A : List vertex} {par : Nat} (c q : Nat)
    {j : Nat} (h : j ≠ par) :
    getV (update_edge A par c q) j = getV A j := by
  rw [update_edge]
  exact getV_setV_ne _ _ _ _ h

theorem length_update_edge (A : List vertex) (i lab target : Nat) :
    (update_edge A i lab target).length = A.length := by
  rw [update_edge]
  exact length_setV _ _ _

/-- Replacing the parent's transition for c from the popped vertex v by an
equivalent canonical vertex q does not change any acceptance behaviour, up
to the pairing of v with q for the current position. -/
theorem accepts_redirect {A : List vertex} {par c q v : Nat}
    (hlk : lookupE (getV A par).edges c = some v)
    (hvq : getV A v = getV A q) (hvpar : v ≠ par) (hqpar : q ≠ par)
    (hpar : par < A.length) :
    ∀ (s : Word) (j j' : Nat), (j' = j ∨ (j = v ∧ j' = q)) →
      accepts (update_edge A par c q) j' s = accepts A j s := by
  intro s
  induction s with
  | nil =>
    intro j j' hj
    rcases hj with hj | ⟨hj1, hj2⟩
    · rw [hj]
      by_cases hjp : j = par
      · rw [hjp, accepts, accepts, getV_update_edge_self c q hpar]
      · rw [accepts, accepts, getV_update_edge_ne c q hjp]
    · rw [hj1, hj2, accepts, accepts, getV_update_edge_ne c q hqpar, ← hvq]
  | cons ch rest ih =>
    intro j j' hj
    rcases hj with hj | ⟨hj1, hj2⟩
    · rw [hj]
      by_cases hjp : j = par
      · rw [hjp, accepts, accepts, getV_update_edge_self c q hpar]
        by_cases hch : ch = c
        · rw [hch, lookupE_insertEdge_self, hlk]
          exact ih v q (Or.inr ⟨rfl, rfl⟩)
        · rw [lookupE_insertEdge_ne _ _ _ _ hch]
          cases hl : lookupE (getV A par).edges ch with
          | none => rfl
          | some t => exact ih t t (Or.inl rfl)
      · rw [accepts, accepts, getV_update_edge_ne c q hjp]
        cases hl : lookupE (getV A j).edges ch with
        | none => rfl
        | some t => exact ih t t (Or.inl rfl)
    · rw [hj1, hj2, accepts, accepts, getV_update_edge_ne c q hqpar, ← hvq]
      cases hl : lookupE (getV A v).edges ch with
      | none => rfl
      | some t => exact ih t t (Or.inl rfl)

/-- Walk version of accepts_redirect, for transporting reachability
witnesses: a successful walk still succeeds after the redirection, ending at
the same vertex unless it ended at the discarded vertex v. -/
theorem walk_redirect {A : List vertex} {par c q v : Nat}
    (hlk : lookupE (getV A par).edges c = some v)
    (hvq : getV A v = getV A q) (hvpar : v ≠ par) (hqpar : q ≠ par)
    (hpar : par < A.length) :
    ∀ (s : Word) (j j' x : Nat), (j' = j ∨ (j = v ∧ j' = q)) →
      walk A j s = some x →
      walk (update_edge A par c q) j' s = some x ∨
        (x = v ∧ walk (update_edge A par c q) j' s = some q) := by
  intro s
  induction s with
  | nil =>
    intro j j' x hj hx
    rw [walk] at hx
    cases hx
    rcases hj with hj | ⟨hj1, hj2⟩
    · rw [hj]
      exact Or.inl rfl
    · rw [hj2]
      exact Or.inr ⟨hj1, rfl⟩
  | cons ch rest ih =>
    intro j j' x hj hx
    rw [walk] at hx
    cases hl : lookupE (getV A j).edges ch with
    | none => rw [hl] at hx; cases hx
    | some t =>
      rw [hl] at hx
      rcases hj with hj | ⟨hj1, hj2⟩
      · rw [hj]
        by_cases hjp : j = par
        · rw [hjp] at hl
          rw [hjp, walk, getV_update_edge_self c q hpar]
          by_cases hch : ch = c
          · rw [hch] at hl
            have htv : t = v := by
              rw [hl] at hlk
              exact Option.some.inj hlk
            rw [hch, lookupE_insertEdge_self]
            exact ih t q x (Or.inr ⟨htv, rfl⟩) hx
          · rw [lookupE_insertEdge_ne _ _ _ _ hch, hl]
            exact ih t t x (Or.inl rfl) hx
        · rw [walk, getV_update_edge_ne c q hjp, hl]
          exact ih t t x (Or.inl rfl) hx
      · rw [hj1] at hl
        rw [hj2, walk, getV_update_edge_ne c q hqpar, ← hvq, hl]
        exact ih t t x (Or.inl rfl) hx

/-! ### Structure of the minimize_until loop -/

theorem minimize_go_stop {u : Nat} {path : List (Nat × Nat)}
    (A : List vertex) (reg : List Nat) (h : path.length ≤ u) :
    minimize_go u path A reg = (A, reg, path) := by
  cases path with
  | nil => rfl
  | cons e rest =>
    obtain ⟨v, c⟩ := e
    rw [List.length_cons] at h
    rw [minimize_go, if_pos h]

theorem minimize_go_path (u : Nat) :
    ∀ (path : List (Nat × Nat)) (A : List vertex) (reg : List Nat),
      (minimize_go u path A reg).2.2 = path.drop (path.length - u) := by
  intro path
  induction path with
  | nil =>
    intro A reg
    rw [minimize_go]
    simp
  | cons e rest ih =>
    obtain ⟨v, c⟩ := e
    intro A reg
    by_cases hle : rest.length + 1 ≤ u
    · rw [minimize_go, if_pos hle]
      have : rest.length + 1 - u = 0 := by omega
      rw [List.length_cons, this, List.drop_zero]
    · rw [minimize_go, if_neg hle]
      have harith : rest.length + 1 - u = (rest.length - u) + 1 := by omega
      rw [List.length_cons, harith, List.drop_succ_cons]
      cases hf : find_equiv A reg v with
      | some q => exact ih (redirect A rest c q) reg
      | none => exact ih A (v :: reg)

theorem find_equiv_some {A : List vertex} {reg : List Nat} {v q : Nat}
    (h : find_equiv A reg v = some q) : q ∈ reg ∧ getV A q = getV A v := by
  rw [find_equiv] at h
  refine ⟨List.mem_of_find?_eq_some h, ?_⟩
  have := List.find?_some h
  simpa using this

theorem find_equiv_none {A : List vertex} {reg : List Nat} {v : Nat}
    (h : find_equiv A reg v = none) : ∀ q ∈ reg, getV A q ≠ getV A v := by
  intro q hq
  rw [find_equiv] at h
  have := List.find?_eq_none.mp h q hq
  simpa using this

theorem redirect_eq (A : List vertex) (rest : List (Nat × Nat)) (c q : Nat) :
    redirect A rest c q = update_edge A (below rest) c q := by
  cases rest with
  | nil => rfl
  | cons e t => obtain ⟨p, _⟩ := e; rfl

theorem reverse_cons_dropLast (hd : Nat × Nat) (tl : List (Nat × Nat)) :
    ((hd :: tl).reverse).dropLast = tl.reverse := by
  rw [List.reverse_cons, List.dropLast_concat]

/-- Two vertices whose canonical targets are all in the registry and whose
records differ have different right languages, provided registry vertices
have nonempty, pairwise distinct languages. -/
theorem distinct_lang_of_ne {A : List vertex} {reg : List Nat} {x y : Nat}
    (hxy : getV A x ≠ getV A y)
    (hxcl : ∀ e ∈ (getV A x).edges, e.2 ∈ reg)
    (hycl : ∀ e ∈ (getV A y).edges, e.2 ∈ reg)
    (hsx : edges_sorted (getV A x).edges)
    (hsy : edges_sorted (getV A y).edges)
    (hrl : ∀ q ∈ reg, ∃ w, accepts A q w = true)
    (hrd : ∀ q1 ∈ reg, ∀ q2 ∈ reg, q1 ≠ q2 → ∃ w, accepts A q1 w ≠ accepts A q2 w) :
    ∃ w, accepts A x w ≠ accepts A y w := by
  by_cases hflag : (getV A x).is_accepting = (getV A y).is_accepting
  · have hedges : (getV A x).edges ≠ (getV A y).edges := by
      intro h
      apply hxy
      cases hx : getV A x
      cases hy : getV A y
      rw [hx, hy] at h hflag
      simp at h hflag
      simp [h, hflag]
    obtain ⟨k, hk⟩ := sorted_lookup_ext hsx hsy hedges
    cases hlx : lookupE (getV A x).edges k with
    | none =>
      cases hly : lookupE (getV A y).edges k with
      | none => rw [hlx, hly] at hk; exact absurd rfl hk
      | some t2 =>
        have ht2 : t2 ∈ reg := hycl _ (lookupE_mem hly)
        obtain ⟨w, hw⟩ := hrl t2 ht2
        refine ⟨k :: w, ?_⟩
        rw [accepts, accepts, hlx, hly]
        simp [hw]
    | some t1 =>
      have ht1 : t1 ∈ reg := hxcl _ (lookupE_mem hlx)
      cases hly : lookupE (getV A y).edges k with
      | none =>
        obtain ⟨w, hw⟩ := hrl t1 ht1
        refine ⟨k :: w, ?_⟩
        rw [accepts, accepts, hlx, hly]
        simp [hw]
      | some t2 =>
        have ht2 : t2 ∈ reg := hycl _ (lookupE_mem hly)
        have hne : t1 ≠ t2 := by
          intro h
          rw [hlx, hly, h] at hk
          exact hk rfl
        obtain ⟨w, hw⟩ := hrd t1 ht1 t2 ht2 hne
        refine ⟨k :: w, ?_⟩
        rw [accepts, accepts, hlx, hly]
        exact hw
  · exact ⟨[], by rw [accepts, accepts]; exact fun h => hflag (by rw [h])⟩

/-- One found-case step of the minimize loop: the popped top has an
equivalent canonical vertex; the parent is redirected to it and the popped
vertex is dropped.  The invariant survives, no acceptance behaviour changes
anywhere, and registry records are untouched. -/
theorem minimize_step_found {A : List vertex} {v c : Nat}
    {rest : List (Nat × Nat)} {reg : List Nat} {q : Nat}
    (hinv : Inv A ((v, c) :: rest) reg)
    (hq : q ∈ reg) (hvq : getV A q = getV A v) :
    Inv (redirect A rest c q) rest reg ∧
    (∀ j s, accepts (redirect A rest c q) j s = accepts A j s) ∧
    (∀ x ∈ reg, getV (redirect A rest c q) x = getV A x) ∧
    (redirect A rest c q).length = A.length ∧
    (∀ i, (getV (redirect A rest c q) i).edges.map Prod.fst
        = (getV A i).edges.map Prod.fst) := by
  have hchain := hinv.chain
  rw [List.reverse_cons] at hchain
  obtain ⟨hc1, hc2⟩ := chainOK_append.mp hchain
  rw [← below_eq_endOf] at hc2
  obtain ⟨hlk, hlab, hoth, -⟩ := hc2
  have hv0 : v ≠ 0 := by
    intro h
    exact hinv.root_not_path (by rw [List.map_cons, ← h]; exact List.mem_cons_self _ _)
  have hvrest : v ∉ rest.map Prod.fst := by
    have := hinv.path_nodup
    rw [List.map_cons] at this
    exact (List.nodup_cons.mp this).1
  have hvpar : v ≠ below rest := by
    cases rest with
    | nil => exact hv0
    | cons e t =>
      obtain ⟨p, pc⟩ := e
      intro h
      exact hvrest (by rw [below] at h; rw [List.map_cons, h]; exact List.mem_cons_self _ _)
  have hqpar : q ≠ below rest := by
    cases rest with
    | nil =>
      intro h
      have h0 : q = 0 := h
      exact hinv.reg_not_root (h0 ▸ hq)
    | cons e t =>
      obtain ⟨p, pc⟩ := e
      intro h
      refine hinv.reg_path_disj q hq ?_
      rw [below] at h
      rw [List.map_cons, List.map_cons, h]
      exact List.mem_cons_of_mem _ (List.mem_cons_self _ _)
  have hpar : below rest < A.length := by
    cases rest with
    | nil => exact hinv.root_lt
    | cons e t =>
      obtain ⟨p, pc⟩ := e
      have hmem : below ((p, pc) :: t) ∈ ((v, c) :: (p, pc) :: t).map Prod.fst := by
        rw [below, List.map_cons, List.map_cons]
        exact List.mem_cons_of_mem _ (List.mem_cons_self _ _)
      exact hinv.path_lt _ hmem
  have hvq' : getV A v = getV A q := hvq.symm
  have hsim : ∀ j s, accepts (redirect A rest c q) j s = accepts A j s := by
    intro j s
    rw [redirect_eq]
    exact accepts_redirect hlk hvq' hvpar hqpar hpar s j j (Or.inl rfl)
  have hregrec : ∀ x ∈ reg, getV (redirect A rest c q) x = getV A x := by
    intro x hx
    rw [redirect_eq]
    apply getV_update_edge_ne
    cases rest with
    | nil =>
      intro h
      have h0 : x = 0 := h
      exact hinv.reg_not_root (h0 ▸ hx)
    | cons e t =>
      obtain ⟨p, pc⟩ := e
      intro h
      refine hinv.reg_path_disj x hx ?_
      rw [below] at h
      rw [List.map_cons, List.map_cons, h]
      exact List.mem_cons_of_mem _ (List.mem_cons_self _ _)
  have hlen : (redirect A rest c q).length = A.length := by
    rw [redirect_eq, length_update_edge]
  have hkeys : ∀ i, (getV (redirect A rest c q) i).edges.map Prod.fst
      = (getV A i).edges.map Prod.fst := by
    intro i
    rw [redirect_eq]
    by_cases hip : i = below rest
    · rw [hip, getV_update_edge_self c q hpar]
      exact keys_insertEdge_mem q (hinv.esorted _) hlk
    · rw [getV_update_edge_ne c q hip]
  have hrestsub : ∀ x ∈ rest.map Prod.fst, x ∈ ((v, c) :: rest).map Prod.fst := by
    intro x hx
    rw [List.map_cons]
    exact List.mem_cons_of_mem _ hx
  have hgetne : ∀ i : Nat, i ≠ below rest →
      getV (redirect A rest c q) i = getV A i := by
    intro i hi
    rw [redirect_eq]
    exact getV_update_edge_ne c q hi
  refine ⟨?_, hsim, hregrec, hlen, hkeys⟩
  refine ⟨?_, ?_, ?_, ?_, ?_, ?_, ?_, ?_, ?_, ?_, ?_, ?_, ?_, ?_, ?_, ?_⟩
  · rw [hlen]; exact hinv.root_lt
  · intro p hp
    rw [hlen]
    exact hinv.path_lt p (hrestsub p hp)
  · intro x hx
    rw [hlen]
    exact hinv.reg_lt x hx
  · intro i e he
    rw [hlen]
    rw [redirect_eq] at he
    by_cases hip : i = below rest
    · rw [hip, getV_update_edge_self c q hpar] at he
      rcases mem_insertEdge he with h | h
      · rw [h]
        exact hinv.reg_lt q hq
      · exact hinv.edge_lt _ e h
    · rw [getV_update_edge_ne c q hip] at he
      exact hinv.edge_lt i e he
  · intro i
    rw [redirect_eq]
    by_cases hip : i = below rest
    · rw [hip, getV_update_edge_self c q hpar]
      exact sorted_insertEdge c q (hinv.esorted _)
    · rw [getV_update_edge_ne c q hip]
      exact hinv.esorted i
  · refine chainOK_congr ?_ hc1
    intro x hx
    apply hgetne
    rcases chain_refs_sub x hx with h | h
    · cases rest with
      | nil => cases hx
      | cons e t =>
        obtain ⟨p, pc⟩ := e
        rw [h, below]
        intro h0
        have hmem : (0 : Nat) ∈ ((v, c) :: (p, pc) :: t).map Prod.fst := by
          rw [List.map_cons, List.map_cons, ← h0]
          exact List.mem_cons_of_mem _ (List.mem_cons_self _ _)
        exact hinv.root_not_path hmem
    · cases rest with
      | nil => simp at h
      | cons e t =>
        obtain ⟨p, pc⟩ := e
        rw [reverse_cons_dropLast] at h
        rw [List.map_reverse, List.mem_reverse] at h
        rw [below]
        intro hxp
        have hnd := hinv.path_nodup
        rw [List.map_cons, List.map_cons] at hnd
        have := (List.nodup_cons.mp (List.nodup_cons.mp hnd).2).1
        exact this (hxp ▸ h)
  · intro e he
    rw [redirect_eq, getV_update_edge_self c q hpar] at he
    rcases mem_insertEdge_sorted (hinv.esorted _) he with h | ⟨h, hne⟩
    · rw [h]
      exact hq
    · exact hoth e h hne
  · intro x hx e he
    rw [hregrec x hx] at he
    exact hinv.reg_closed x hx e he
  · exact hinv.reg_nodup
  · exact hinv.reg_not_root
  · intro x hx h
    exact hinv.reg_path_disj x hx (hrestsub _ h)
  · have := hinv.path_nodup
    rw [List.map_cons] at this
    exact (List.nodup_cons.mp this).2
  · intro h
    exact hinv.root_not_path (hrestsub _ h)
  · intro x hx
    obtain ⟨w, hw⟩ := hinv.reg_lang x hx
    exact ⟨w, by rw [hsim]; exact hw⟩
  · intro x hx
    obtain ⟨s, hs⟩ := hinv.reg_reach x hx
    have hxv : x ≠ v := by
      intro h
      exact hinv.reg_path_disj x hx
        (by rw [h, List.map_cons]; exact List.mem_cons_self _ _)
    have := walk_redirect hlk hvq' hvpar hqpar hpar s 0 0 x (Or.inl rfl) hs
    rcases this with h | ⟨h, _⟩
    · exact ⟨s, by rw [redirect_eq]; exact h⟩
    · exact absurd h hxv
  · intro x1 h1 x2 h2 hne
    obtain ⟨w, hw⟩ := hinv.reg_distinct x1 h1 x2 h2 hne
    exact ⟨w, by rw [hsim, hsim]; exact hw⟩

/-- One not-found-case step of the minimize loop: the popped top becomes a
new canonical vertex. -/
theorem minimize_step_none {A : List vertex} {v c : Nat}
    {rest : List (Nat × Nat)} {reg : List Nat}
    (hinv : Inv A ((v, c) :: rest) reg)
    (hnone : find_equiv A reg v = none)
    (hvlang : ∃ w, accepts A v w = true) :
    Inv A rest (v :: reg) := by
  have hchain := hinv.chain
  rw [List.reverse_cons] at hchain
  obtain ⟨hc1, hc2⟩ := chainOK_append.mp hchain
  rw [← below_eq_endOf] at hc2
  obtain ⟨hlk, hlab, hoth, -⟩ := hc2
  have hv0 : v ≠ 0 := by
    intro h
    exact hinv.root_not_path (by rw [List.map_cons, ← h]; exact List.mem_cons_self _ _)
  have hvrest : v ∉ rest.map Prod.fst := by
    have := hinv.path_nodup
    rw [List.map_cons] at this
    exact (List.nodup_cons.mp this).1
  have htopv : ∀ e ∈ (getV A v).edges, e.2 ∈ reg := by
    have := hinv.top_closed
    rw [show below ((v, c) :: rest) = v from rfl] at this
    exact this
  have hvnotreg : v ∉ reg := by
    intro h
    exact hinv.reg_path_disj v h (by rw [List.map_cons]; exact List.mem_cons_self _ _)
  have hsub : ∀ x ∈ reg, x ∈ v :: reg := fun x hx => List.mem_cons_of_mem _ hx
  have hvreach : walk A 0 (((v, c) :: rest).reverse.map Prod.snd) = some v := by
    have := chainOK_walk hinv.chain
    rw [← below_eq_endOf] at this
    exact this
  refine ⟨?_, ?_, ?_, ?_, ?_, ?_, ?_, ?_, ?_, ?_, ?_, ?_, ?_, ?_, ?_, ?_⟩
  · exact hinv.root_lt
  · intro p hp
    exact hinv.path_lt p (by rw [List.map_cons]; exact List.mem_cons_of_mem _ hp)
  · intro x hx
    rcases List.mem_cons.mp hx with h | h
    · rw [h]
      exact hinv.path_lt v (by rw [List.map_cons]; exact List.mem_cons_self _ _)
    · exact hinv.reg_lt x h
  · exact hinv.edge_lt
  · exact hinv.esorted
  · exact chainOK_mono hsub hc1
  · intro e he
    by_cases hec : e.1 = c
    · have hl : lookupE (getV A (below rest)).edges e.1 = some e.2 :=
        mem_lookupE_sorted (hinv.esorted _) (by exact he)
      rw [hec, hlk] at hl
      rw [show e.2 = v from (Option.some.inj hl).symm]
      exact List.mem_cons_self _ _
    · exact List.mem_cons_of_mem _ (hoth e he hec)
  · intro x hx e he
    rcases List.mem_cons.mp hx with h | h
    · rw [h] at he
      exact List.mem_cons_of_mem _ (htopv e he)
    · exact List.mem_cons_of_mem _ (hinv.reg_closed x h e he)
  · exact List.nodup_cons.mpr ⟨hvnotreg, hinv.reg_nodup⟩
  · intro h
    rcases List.mem_cons.mp h with h' | h'
    · exact hv0 h'.symm
    · exact hinv.reg_not_root h'
  · intro x hx h
    rcases List.mem_cons.mp hx with h' | h'
    · rw [h'] at h
      exact hvrest h
    · exact hinv.reg_path_disj x h' (by rw [List.map_cons]; exact List.mem_cons_of_mem _ h)
  · have := hinv.path_nodup
    rw [List.map_cons] at this
    exact (List.nodup_cons.mp this).2
  · intro h
    exact hinv.root_not_path (by rw [List.map_cons]; exact List.mem_cons_of_mem _ h)
  · intro x hx
    rcases List.mem_cons.mp hx with h | h
    · rw [h]
      exact hvlang
    · exact hinv.reg_lang x h
  · intro x hx
    rcases List.mem_cons.mp hx with h | h
    · rw [h]
      exact ⟨_, hvreach⟩
    · exact hinv.reg_reach x h
  · intro x1 h1 x2 h2 hne
    rcases List.mem_cons.mp h1 with h1' | h1'
    · rcases List.mem_cons.mp h2 with h2' | h2'
      · exact absurd (h1'.trans h2'.symm) hne
      · rw [h1']
        have hxy : getV A v ≠ getV A x2 :=
          fun h => (find_equiv_none hnone x2 h2') h.symm
        exact distinct_lang_of_ne hxy htopv (hinv.reg_closed x2 h2')
          (hinv.esorted _) (hinv.esorted _) hinv.reg_lang hinv.reg_distinct
    · rcases List.mem_cons.mp h2 with h2' | h2'
      · rw [h2']
        have hxy : getV A x1 ≠ getV A v :=
          find_equiv_none hnone x1 h1'
        obtain ⟨w, hw⟩ := distinct_lang_of_ne hxy (hinv.reg_closed x1 h1') htopv
          (hinv.esorted _) (hinv.esorted _) hinv.reg_lang hinv.reg_distinct
        exact ⟨w, hw⟩
      · exact hinv.reg_distinct x1 h1' x2 h2' hne

/-- Master lemma for the minimize_until loop: the invariant is preserved, no
acceptance behaviour changes anywhere, registry entries are never removed or
mutated, arena length and all transition keys are stable, and new registry
entries come from the popped path entries. -/
theorem minimize_go_master (u : Nat) :
    ∀ (path : List (Nat × Nat)) (A : List vertex) (reg : List Nat),
      Inv A path reg →
      (∀ p ∈ path.map Prod.fst, ∃ w, accepts A p w = true) →
      Inv (minimize_go u path A reg).1 (minimize_go u path A reg).2.2
          (minimize_go u path A reg).2.1 ∧
      (∀ j s, accepts (minimize_go u path A reg).1 j s = accepts A j s) ∧
      (∀ x ∈ reg, x ∈ (minimize_go u path A reg).2.1 ∧
        getV (minimize_go u path A reg).1 x = getV A x) ∧
      (minimize_go u path A reg).1.length = A.length ∧
      (∀ i, (getV (minimize_go u path A reg).1 i).edges.map Prod.fst
          = (getV A i).edges.map Prod.fst) ∧
      (∀ x ∈ (minimize_go u path A reg).2.1, x ∈ reg ∨ x ∈ path.map Prod.fst) := by
  intro path
  induction path with
  | nil =>
    intro A reg hinv hplang
    rw [minimize_go]
    exact ⟨hinv, fun j s => rfl, fun x hx => ⟨hx, rfl⟩, rfl, fun i => rfl,
      fun x hx => Or.inl hx⟩
  | cons e rest ih =>
    obtain ⟨v, c⟩ := e
    intro A reg hinv hplang
    rw [minimize_go]
    by_cases hle : rest.length + 1 ≤ u
    · rw [if_pos hle]
      exact ⟨hinv, fun j s => rfl, fun x hx => ⟨hx, rfl⟩, rfl, fun i => rfl,
        fun x hx => Or.inl hx⟩
    · rw [if_neg hle]
      cases hf : find_equiv A reg v with
      | some q =>
        obtain ⟨hq, hvq⟩ := find_equiv_some hf
        obtain ⟨hinv1, hsim, hrec, hlen, hkeys⟩ := minimize_step_found hinv hq hvq
        have hplang1 : ∀ p ∈ rest.map Prod.fst,
            ∃ w, accepts (redirect A rest c q) p w = true := by
          intro p hp
          obtain ⟨w, hw⟩ := hplang p (by rw [List.map_cons]; exact List.mem_cons_of_mem _ hp)
          exact ⟨w, by rw [hsim]; exact hw⟩
        obtain ⟨ih1, ih2, ih3, ih4, ih5, ih6⟩ := ih (redirect A rest c q) reg hinv1 hplang1
        refine ⟨ih1, ?_, ?_, ?_, ?_, ?_⟩
        · intro j s
          rw [ih2, hsim]
        · intro x hx
          obtain ⟨hm, hr⟩ := ih3 x hx
          exact ⟨hm, by rw [hr, hrec x hx]⟩
        · rw [ih4, hlen]
        · intro i
          rw [ih5, hkeys]
        · intro x hx
          rcases ih6 x hx with h | h
          · exact Or.inl h
          · exact Or.inr (by rw [List.map_cons]; exact List.mem_cons_of_mem _ h)
      | none =>
        have hvlang : ∃ w, accepts A v w = true :=
          hplang v (by rw [List.map_cons]; exact List.mem_cons_self _ _)
        have hinv1 : Inv A rest (v :: reg) := minimize_step_none hinv hf hvlang
        have hplang1 : ∀ p ∈ rest.map Prod.fst, ∃ w, accepts A p w = true := by
          intro p hp
          exact hplang p (by rw [List.map_cons]; exact List.mem_cons_of_mem _ hp)
        obtain ⟨ih1, ih2, ih3, ih4, ih5, ih6⟩ := ih A (v :: reg) hinv1 hplang1
        refine ⟨ih1, ih2, ?_, ih4, ih5, ?_⟩
        · intro x hx
          exact ih3 x (List.mem_cons_of_mem _ hx)
        · intro x hx
          rcases ih6 x hx with h | h
          · rcases List.mem_cons.mp h with h' | h'
            · exact Or.inr (by rw [h', List.map_cons]; exact List.mem_cons_self _ _)
            · exact Or.inl h'
          · exact Or.inr (by rw [List.map_cons]; exact List.mem_cons_of_mem _ h)

/-! ### Effect of growing a fresh suffix chain -/

theorem accepts_dead {A : List vertex} {i : Nat}
    (h : getV A i = ⟨[], false⟩) (s : Word) : accepts A i s = false := by
  cases s with
  | nil => rw [accepts, h]
  | cons c rest => rw [accepts, h]; rfl

theorem below_lt {A : List vertex} {path : List (Nat × Nat)} {reg : List Nat}
    (hinv : Inv A path reg) : below path < A.length := by
  cases path with
  | nil => exact hinv.root_lt
  | cons e t =>
    obtain ⟨p, c⟩ := e
    exact hinv.path_lt _ (by rw [below, List.map_cons]; exact List.mem_cons_self _ _)

theorem getV_fresh_par {A : List vertex} {par : Nat} (ch : Nat)
    (hpar : par < A.length) :
    getV (update_edge (A ++ [⟨[], false⟩]) par ch A.length) par =
      ⟨insertEdge (getV A par).edges ch A.length, (getV A par).is_accepting⟩ := by
  have h1 : getV (A ++ [⟨[], false⟩]) par = getV A par := getV_append_lt _ _ _ hpar
  rw [update_edge, getV_setV_self _ _ _ (by rw [List.length_append]; omega), h1]

theorem getV_fresh_new {A : List vertex} {par : Nat} (ch : Nat)
    (hpar : par < A.length) :
    getV (update_edge (A ++ [⟨[], false⟩]) par ch A.length) A.length =
      ⟨[], false⟩ := by
  rw [update_edge, getV_setV_ne _ _ _ _ (by omega), getV_append_len]

theorem getV_fresh_old {A : List vertex} {par : Nat} (ch : Nat) {j : Nat}
    (hj : j < A.length) (hjp : j ≠ par) :
    getV (update_edge (A ++ [⟨[], false⟩]) par ch A.length) j = getV A j := by
  rw [update_edge, getV_setV_ne _ _ _ _ hjp]
  exact getV_append_lt _ _ _ hj

theorem length_fresh (A : List vertex) (par ch : Nat) :
    (update_edge (A ++ [⟨[], false⟩]) par ch A.length).length = A.length + 1 := by
  rw [update_edge, length_setV, List.length_append]
  rfl

/-- Wiring a brand-new childless vertex under a fresh label changes no
acceptance behaviour at any pre-existing vertex. -/
theorem accepts_fresh {A : List vertex} {par ch : Nat} (hpar : par < A.length)
    (hlk : lookupE (getV A par).edges ch = none)
    (hedge : ∀ i : Nat, ∀ e ∈ (getV A i).edges, e.2 < A.length) :
    ∀ (s : Word) (j : Nat), j < A.length →
      accepts (update_edge (A ++ [⟨[], false⟩]) par ch A.length) j s =
        accepts A j s := by
  intro s
  induction s with
  | nil =>
    intro j hj
    by_cases hjp : j = par
    · rw [hjp, accepts, accepts, getV_fresh_par ch hpar]
    · rw [accepts, accepts, getV_fresh_old ch hj hjp]
  | cons c0 rest ih =>
    intro j hj
    by_cases hjp : j = par
    · rw [hjp, accepts, accepts, getV_fresh_par ch hpar]
      by_cases hc : c0 = ch
      · rw [hc, lookupE_insertEdge_self, hlk]
        exact accepts_dead (getV_fresh_new ch hpar) rest
      · rw [lookupE_insertEdge_ne _ _ _ _ hc]
        cases hl : lookupE (getV A par).edges c0 with
        | none => rfl
        | some t => exact ih t (hedge par _ (lookupE_mem hl))
    · rw [accepts, accepts, getV_fresh_old ch hj hjp]
      cases hl : lookupE (getV A j).edges c0 with
      | none => rfl
      | some t => exact ih t (hedge j _ (lookupE_mem hl))

/-- Old successful walks are unaffected by wiring a fresh vertex. -/
theorem walk_fresh {A : List vertex} {par ch : Nat} (hpar : par < A.length)
    (hlk : lookupE (getV A par).edges ch = none)
    (hedge : ∀ i : Nat, ∀ e ∈ (getV A i).edges, e.2 < A.length) :
    ∀ (s : Word) (j x : Nat), j < A.length → walk A j s = some x →
      walk (update_edge (A ++ [⟨[], false⟩]) par ch A.length) j s = some x := by
  intro s
  induction s with
  | nil =>
    intro j x hj hx
    rw [walk] at hx ⊢
    exact hx
  | cons c0 rest ih =>
    intro j x hj hx
    rw [walk] at hx
    cases hl : lookupE (getV A j).edges c0 with
    | none => rw [hl] at hx; cases hx
    | some t =>
      rw [hl] at hx
      by_cases hjp : j = par
      · rw [hjp] at hl
        have hc : c0 ≠ ch := by
          intro h
          rw [h, hlk] at hl
          cases hl
        rw [hjp, walk, getV_fresh_par ch hpar]
        rw [lookupE_insertEdge_ne _ _ _ _ hc, hl]
        exact ih t x (hedge par _ (lookupE_mem hl)) hx
      · rw [walk, getV_fresh_old ch hj hjp, hl]
        exact ih t x (hedge j _ (lookupE_mem hl)) hx

/-- One step of the add_suffix loop: creating a fresh vertex under a strictly
larger label than anything on the attach vertex preserves the invariant, with
the fresh vertex pushed on the path. -/
theorem add_chain_step {A : List vertex} {path : List (Nat × Nat)}
    {reg : List Nat} {ch : Nat}
    (hinv : Inv A path reg)
    (hfresh : ∀ e ∈ (getV A (below path)).edges, e.1 < ch) :
    Inv (update_edge (A ++ [⟨[], false⟩]) (below path) ch A.length)
        ((A.length, ch) :: path) reg := by
  set par := below path with hpardef
  have hpar : par < A.length := below_lt hinv
  have hlk : lookupE (getV A par).edges ch = none :=
    lookupE_eq_none _ _ (fun e he => by have := hfresh e he; omega)
  set A1 := update_edge (A ++ [⟨[], false⟩]) par ch A.length with hA1def
  have hlen1 : A1.length = A.length + 1 := length_fresh A par ch
  have hgpar : getV A1 par =
      ⟨insertEdge (getV A par).edges ch A.length, (getV A par).is_accepting⟩ :=
    getV_fresh_par ch hpar
  have hgnew : getV A1 A.length = ⟨[], false⟩ := getV_fresh_new ch hpar
  have hgold : ∀ j : Nat, j < A.length → j ≠ par → getV A1 j = getV A j :=
    fun j hj hjp => getV_fresh_old ch hj hjp
  have hgbig : ∀ j : Nat, A.length + 1 ≤ j → getV A1 j = ⟨[], false⟩ :=
    fun j hj => getV_default _ _ (by omega)
  have hregne : ∀ x ∈ reg, x ≠ par := by
    intro x hx
    cases path with
    | nil =>
      intro h
      have h0 : x = 0 := h
      exact hinv.reg_not_root (h0 ▸ hx)
    | cons e t =>
      obtain ⟨p, pc⟩ := e
      intro h
      refine hinv.reg_path_disj x hx ?_
      rw [List.map_cons, h]
      exact List.mem_cons_self _ _
  have hregrec : ∀ x ∈ reg, getV A1 x = getV A x :=
    fun x hx => hgold x (hinv.reg_lt x hx) (hregne x hx)
  have hacc : ∀ (s : Word) (j : Nat), j < A.length →
      accepts A1 j s = accepts A j s :=
    fun s j hj => accepts_fresh hpar hlk hinv.edge_lt s j hj
  refine ⟨?_, ?_, ?_, ?_, ?_, ?_, ?_, ?_, ?_, ?_, ?_, ?_, ?_, ?_, ?_, ?_⟩
  · omega
  · intro p hp
    rw [List.map_cons] at hp
    rcases List.mem_cons.mp hp with h | h
    · omega
    · have := hinv.path_lt p h
      omega
  · intro x hx
    have := hinv.reg_lt x hx
    omega
  · intro i e he
    by_cases hip : i = par
    · rw [hip, hgpar] at he
      rcases mem_insertEdge he with h | h
      · rw [h]
        simp
        omega
      · have := hinv.edge_lt par e h
        omega
    · by_cases hilt : i < A.length
      · rw [hgold i hilt hip] at he
        have := hinv.edge_lt i e he
        omega
      · by_cases hin : i = A.length
        · rw [hin, hgnew] at he
          cases he
        · rw [hgbig i (by omega)] at he
          cases he
  · intro i
    by_cases hip : i = par
    · rw [hip, hgpar]
      exact sorted_insertEdge ch A.length (hinv.esorted par)
    · by_cases hilt : i < A.length
      · rw [hgold i hilt hip]
        exact hinv.esorted i
      · by_cases hin : i = A.length
        · rw [hin, hgnew]
          exact List.Pairwise.nil
        · rw [hgbig i (by omega)]
          exact List.Pairwise.nil
  · rw [List.reverse_cons]
    refine chainOK_append.mpr ⟨?_, ?_⟩
    · refine chainOK_congr ?_ hinv.chain
      intro x hx
      rcases chain_refs_sub x hx with h | h
      · cases path with
        | nil => cases hx
        | cons e t =>
          obtain ⟨p, pc⟩ := e
          have h0par : (0 : Nat) ≠ par := by
            rw [hpardef, below]
            intro hc
            exact hinv.root_not_path (by rw [List.map_cons, ← hc]; exact List.mem_cons_self _ _)
          rw [h]
          exact hgold 0 hinv.root_lt h0par
      · cases path with
        | nil => simp at h
        | cons e t =>
          obtain ⟨p, pc⟩ := e
          rw [reverse_cons_dropLast] at h
          rw [List.map_reverse, List.mem_reverse] at h
          have hxp : x ≠ par := by
            rw [hpardef, below]
            intro hc
            have hnd := hinv.path_nodup
            rw [List.map_cons] at hnd
            exact (List.nodup_cons.mp hnd).1 (hc ▸ h)
          have hxlt : x < A.length :=
            hinv.path_lt x (by rw [List.map_cons]; exact List.mem_cons_of_mem _ h)
          exact hgold x hxlt hxp
    · rw [← below_eq_endOf, ← hpardef]
      refine ⟨?_, ?_, ?_, trivial⟩
      · rw [hgpar]
        exact lookupE_insertEdge_self _ _ _
      · intro e he
        rw [hgpar] at he
        rcases mem_insertEdge he with h | h
        · rw [h]
        · have := hfresh e h
          omega
      · intro e he hne
        rw [hgpar] at he
        rcases mem_insertEdge_sorted (hinv.esorted par) he with h | ⟨h, -⟩
        · exact absurd (by rw [h]) hne
        · exact hinv.top_closed e h
  · intro e he
    rw [show below ((A.length, ch) :: path) = A.length from rfl, hgnew] at he
    cases he
  · intro x hx e he
    rw [hregrec x hx] at he
    exact hinv.reg_closed x hx e he
  · exact hinv.reg_nodup
  · exact hinv.reg_not_root
  · intro x hx hmem
    rw [List.map_cons] at hmem
    rcases List.mem_cons.mp hmem with h | h
    · have := hinv.reg_lt x hx
      omega
    · exact hinv.reg_path_disj x hx h
  · rw [List.map_cons]
    refine List.nodup_cons.mpr ⟨?_, hinv.path_nodup⟩
    intro h
    have := hinv.path_lt _ h
    omega
  · rw [List.map_cons]
    intro h
    rcases List.mem_cons.mp h with h' | h'
    · have := hinv.root_lt
      omega
    · exact hinv.root_not_path h'
  · intro x hx
    obtain ⟨w, hw⟩ := hinv.reg_lang x hx
    exact ⟨w, by rw [hacc w x (hinv.reg_lt x hx)]; exact hw⟩
  · intro x hx
    obtain ⟨sw, hsw⟩ := hinv.reg_reach x hx
    exact ⟨sw, walk_fresh hpar hlk hinv.edge_lt sw 0 x hinv.root_lt hsw⟩
  · intro x1 h1 x2 h2 hne
    obtain ⟨w, hw⟩ := hinv.reg_distinct x1 h1 x2 h2 hne
    refine ⟨w, ?_⟩
    rw [hacc w x1 (hinv.reg_lt x1 h1), hacc w x2 (hinv.reg_lt x2 h2)]
    exact hw

/-- Master lemma for the add_suffix loop (before the final marking): the
invariant is preserved with the new chain pushed onto the path, the new path
spells the suffix on top of the old path, acceptance at pre-existing
vertices and old root walks are unchanged, registry records are untouched,
and for a nonempty suffix the resulting word-end vertex is fresh. -/
theorem add_chain_master :
    ∀ (suffix : List Nat) (A : List vertex) (path : List (Nat × Nat)) (reg : List Nat),
      Inv A path reg →
      (∀ ch tail, suffix = ch :: tail →
        ∀ e ∈ (getV A (below path)).edges, e.1 < ch) →
      Inv (add_chain suffix (below path) A path).1
          (add_chain suffix (below path) A path).2.1 reg ∧
      (add_chain suffix (below path) A path).2.1.map Prod.snd
        = suffix.reverse ++ path.map Prod.snd ∧
      (add_chain suffix (below path) A path).2.2
        = below (add_chain suffix (below path) A path).2.1 ∧
      (∀ j : Nat, j < A.length → ∀ s,
        accepts (add_chain suffix (below path) A path).1 j s = accepts A j s) ∧
      (∀ (s : Word) (x : Nat), walk A 0 s = some x →
        walk (add_chain suffix (below path) A path).1 0 s = some x) ∧
      (add_chain suffix (below path) A path).1.length = A.length + suffix.length ∧
      (∀ x ∈ reg, getV (add_chain suffix (below path) A path).1 x = getV A x) ∧
      (suffix ≠ [] →
        getV (add_chain suffix (below path) A path).1
          (add_chain suffix (below path) A path).2.2 = ⟨[], false⟩) := by
  intro suffix
  induction suffix with
  | nil =>
    intro A path reg hinv _
    rw [add_chain]
    refine ⟨hinv, by simp, rfl, fun j _ s => rfl, fun s x h => h, by simp,
      fun x _ => rfl, fun h => absurd rfl h⟩
  | cons ch tail ih =>
    intro A path reg hinv hfr
    have hfresh : ∀ e ∈ (getV A (below path)).edges, e.1 < ch :=
      hfr ch tail rfl
    have hpar : below path < A.length := below_lt hinv
    have hlk : lookupE (getV A (below path)).edges ch = none :=
      lookupE_eq_none _ _ (fun e he => by have := hfresh e he; omega)
    have hinv1 : Inv (update_edge (A ++ [⟨[], false⟩]) (below path) ch A.length)
        ((A.length, ch) :: path) reg := add_chain_step hinv hfresh
    set A1 := update_edge (A ++ [⟨[], false⟩]) (below path) ch A.length with hA1
    have hlen1 : A1.length = A.length + 1 := length_fresh A _ ch
    have hgnew : getV A1 A.length = ⟨[], false⟩ := getV_fresh_new ch hpar
    have hfr1 : ∀ ch2 tail2, tail = ch2 :: tail2 →
        ∀ e ∈ (getV A1 (below ((A.length, ch) :: path))).edges, e.1 < ch2 := by
      intro ch2 tail2 _ e he
      rw [show below ((A.length, ch) :: path) = A.length from rfl, hgnew] at he
      cases he
    obtain ⟨j1, j2, j3, j4, j5, j6, j7, j8⟩ := ih A1 ((A.length, ch) :: path) reg hinv1 hfr1
    have hstep : add_chain (ch :: tail) (below path) A path
        = add_chain tail (below ((A.length, ch) :: path)) A1 ((A.length, ch) :: path) := by
      rw [add_chain]
      rfl
    rw [hstep]
    refine ⟨j1, ?_, j3, ?_, ?_, ?_, ?_, ?_⟩
    · rw [j2]
      simp
    · intro j hj s
      rw [j4 j (by omega) s]
      exact accepts_fresh hpar hlk hinv.edge_lt s j hj
    · intro s x hx
      exact j5 s x (walk_fresh hpar hlk hinv.edge_lt s 0 x hinv.root_lt hx)
    · rw [j6, hlen1]
      simp
      omega
    · intro x hx
      rw [j7 x hx]
      exact getV_fresh_old ch (hinv.reg_lt x hx)
        (fun h => by
          have h2 : x ≠ below path := by
            cases path with
            | nil =>
              have h0 : below ([] : List (Nat × Nat)) = 0 := rfl
              intro hc
              rw [h0] at hc
              exact hinv.reg_not_root (hc ▸ hx)
            | cons e t =>
              obtain ⟨p, pc⟩ := e
              intro hc
              refine hinv.reg_path_disj x hx ?_
              rw [List.map_cons, hc]
              exact List.mem_cons_self _ _
          exact h2 h)
    · intro _
      cases tail with
      | nil =>
        rw [add_chain]
        exact hgnew
      | cons ch2 tail2 =>
        exact j8 (by simp)

/-! ### Effect of marking a word end -/

theorem length_mark (A : List vertex) (f : Nat) :
    (mark_end A f).length = A.length := by
  rw [mark_end, length_setV]

theorem edges_mark (A : List vertex) (f : Nat) :
    ∀ i : Nat, (getV (mark_end A f) i).edges = (getV A i).edges := by
  intro i
  by_cases hf : f < A.length
  · by_cases hif : i = f
    · rw [hif, mark_end, getV_setV_self _ _ _ hf]
    · rw [mark_end, getV_setV_ne _ _ _ _ hif]
  · rw [mark_end, setV_default _ _ _ (by omega)]

theorem flag_mark {A : List vertex} {f : Nat} (hf : f < A.length) :
    ∀ x : Nat, (getV (mark_end A f) x).is_accepting
      = ((getV A x).is_accepting || decide (x = f)) := by
  intro x
  by_cases hxf : x = f
  · rw [hxf, mark_end, getV_setV_self _ _ _ hf]
    simp
  · rw [mark_end, getV_setV_ne _ _ _ _ hxf]
    simp [hxf]

theorem walk_mark (A : List vertex) (f : Nat) :
    ∀ (s : Word) (i : Nat), walk (mark_end A f) i s = walk A i s := by
  intro s
  induction s with
  | nil => intro i; rfl
  | cons c rest ih =>
    intro i
    rw [walk, walk, edges_mark]
    cases lookupE (getV A i).edges c with
    | none => rfl
    | some j => exact ih j

theorem accepts_mark {A : List vertex} {f : Nat} (hf : f < A.length) :
    ∀ (i : Nat) (s : Word), accepts (mark_end A f) i s
      = (accepts A i s || decide (walk A i s = some f)) := by
  intro i s
  rw [accepts_eq_walk, accepts_eq_walk, walk_mark]
  cases walk A i s with
  | none => simp
  | some x =>
    simp [flag_mark hf]

theorem chainOK_congr_edges {A A' : List vertex} {reg : List Nat}
    (h : ∀ x : Nat, (getV A' x).edges = (getV A x).edges) :
    ∀ {L : List (Nat × Nat)} {p : Nat}, chainOK A reg p L → chainOK A' reg p L := by
  intro L
  induction L with
  | nil => intro p _; trivial
  | cons e t ih =>
    obtain ⟨q, c⟩ := e
    intro p hc
    obtain ⟨h1, h2, h3, h4⟩ := hc
    exact ⟨by rw [h]; exact h1, by rw [h]; exact h2, by rw [h]; exact h3, ih h4⟩

theorem Inv_mark {A : List vertex} {path : List (Nat × Nat)} {reg : List Nat}
    {f : Nat} (hinv : Inv A path reg) (hf : f < A.length) (hfreg : f ∉ reg) :
    Inv (mark_end A f) path reg := by
  have hlen := length_mark A f
  have hregacc : ∀ q ∈ reg, ∀ s, accepts (mark_end A f) q s = accepts A q s := by
    intro q hq s
    rw [accepts_mark hf]
    have : walk A q s ≠ some f := by
      intro h
      exact hfreg (walk_closed hinv.reg_closed s q hq f h)
    simp [this]
  refine ⟨?_, ?_, ?_, ?_, ?_, ?_, ?_, ?_, ?_, ?_, ?_, ?_, ?_, ?_, ?_, ?_⟩
  · rw [hlen]; exact hinv.root_lt
  · intro p hp; rw [hlen]; exact hinv.path_lt p hp
  · intro x hx; rw [hlen]; exact hinv.reg_lt x hx
  · intro i e he
    rw [edges_mark] at he
    rw [hlen]
    exact hinv.edge_lt i e he
  · intro i
    rw [edges_sorted, edges_mark]
    exact hinv.esorted i
  · exact chainOK_congr_edges (edges_mark A f) hinv.chain
  · intro e he
    rw [edges_mark] at he
    exact hinv.top_closed e he
  · intro x hx e he
    rw [edges_mark] at he
    exact hinv.reg_closed x hx e he
  · exact hinv.reg_nodup
  · exact hinv.reg_not_root
  · exact hinv.reg_path_disj
  · exact hinv.path_nodup
  · exact hinv.root_not_path
  · intro x hx
    obtain ⟨w, hw⟩ := hinv.reg_lang x hx
    exact ⟨w, by rw [hregacc x hx]; exact hw⟩
  · intro x hx
    obtain ⟨s, hs⟩ := hinv.reg_reach x hx
    exact ⟨s, by rw [walk_mark]; exact hs⟩
  · intro x1 h1 x2 h2 hne
    obtain ⟨w, hw⟩ := hinv.reg_distinct x1 h1 x2 h2 hne
    exact ⟨w, by rw [hregacc x1 h1, hregacc x2 h2]; exact hw⟩

/-! ### Lexicographic order and common prefixes -/

theorem cpl_le_left (p w : Word) : common_prefix_len p w ≤ p.length := by
  induction p generalizing w with
  | nil => cases w <;> simp [common_prefix_len]
  | cons a as ih =>
    cases w with
    | nil => simp [common_prefix_len]
    | cons b bs =>
      by_cases h : a = b
      · rw [common_prefix_len, if_pos h, List.length_cons]
        have := ih bs
        omega
      · rw [common_prefix_len, if_neg h]
        omega

theorem cpl_le_right (p w : Word) : common_prefix_len p w ≤ w.length := by
  induction p generalizing w with
  | nil => cases w <;> simp [common_prefix_len]
  | cons a as ih =>
    cases w with
    | nil => simp [common_prefix_len]
    | cons b bs =>
      by_cases h : a = b
      · rw [common_prefix_len, if_pos h, List.length_cons]
        have := ih bs
        omega
      · rw [common_prefix_len, if_neg h]
        omega

theorem cpl_self (w : Word) : common_prefix_len w w = w.length := by
  induction w with
  | nil => rfl
  | cons a as ih => rw [common_prefix_len, if_pos rfl, ih, List.length_cons]

theorem common_prefix_take (p w : Word) :
    p.take (common_prefix_len p w) = w.take (common_prefix_len p w) := by
  induction p generalizing w with
  | nil => cases w <;> simp [common_prefix_len]
  | cons a as ih =>
    cases w with
    | nil => simp [common_prefix_len]
    | cons b bs =>
      by_cases h : a = b
      · rw [common_prefix_len, if_pos h, List.take_succ_cons, List.take_succ_cons, h, ih bs]
      · rw [common_prefix_len, if_neg h]
        simp

theorem lex_lt_nil {w : Word} (h : w ≠ []) : lex_lt [] w = true := by
  cases w with
  | nil => exact absurd rfl h
  | cons b bs => rfl

theorem lex_cases {p w : Word} (h : lex_lt p w = true) :
    (p.drop (common_prefix_len p w) = [] ∧
      ∃ b tl, w.drop (common_prefix_len p w) = b :: tl) ∨
    (∃ a ptl b wtl, p.drop (common_prefix_len p w) = a :: ptl ∧
      w.drop (common_prefix_len p w) = b :: wtl ∧ a < b) := by
  induction p generalizing w with
  | nil =>
    cases w with
    | nil => cases h
    | cons b bs =>
      left
      exact ⟨rfl, b, bs, rfl⟩
  | cons a as ih =>
    cases w with
    | nil => cases h
    | cons b bs =>
      by_cases hab : a = b
      · have hlex : lex_lt as bs = true := by
          rw [lex_lt] at h
          simpa [hab] using h
        rw [common_prefix_len, if_pos hab, List.drop_succ_cons, List.drop_succ_cons]
        exact ih hlex
      · have hb : a < b := by
          rw [lex_lt] at h
          simpa [hab] using h
        rw [common_prefix_len, if_neg hab, List.drop_zero, List.drop_zero]
        exact Or.inr ⟨a, as, b, bs, rfl, rfl, hb⟩

/-! ### Languages along the path -/

theorem chain_lang {A : List vertex} {reg : List Nat} :
    ∀ {L : List (Nat × Nat)} {p : Nat}, chainOK A reg p L →
      (getV A (endOf p L)).is_accepting = true →
      ∀ x ∈ p :: L.map Prod.fst, ∃ w, accepts A x w = true := by
  intro L p hchain hacc x hx
  rcases List.mem_cons.mp hx with hxp | hxm
  · refine ⟨L.map Prod.snd, ?_⟩
    rw [hxp, accepts_eq_walk, chainOK_walk hchain]
    simpa using hacc
  · obtain ⟨e, heL, hex⟩ := List.mem_map.mp hxm
    obtain ⟨l1, l2, hsplit⟩ := List.append_of_mem heL
    obtain ⟨q, c⟩ := e
    rw [hsplit] at hchain
    obtain ⟨-, hc2⟩ := chainOK_append.mp hchain
    obtain ⟨-, -, -, hc3⟩ := hc2
    refine ⟨l2.map Prod.snd, ?_⟩
    have hend : endOf p L = endOf q l2 := by
      rw [hsplit, endOf_append, endOf]
    rw [← hex]
    rw [accepts_eq_walk, chainOK_walk hc3]
    rw [hend] at hacc
    simpa using hacc

theorem good_path_lang {d : dagger} {ws : List Word} (hg : Good d ws) :
    ∀ p ∈ d.unminimized_path.map Prod.fst, ∃ w, accepts d.arena p w = true := by
  intro p hp
  cases hpath : d.unminimized_path with
  | nil => rw [hpath] at hp; cases hp
  | cons e t =>
    have hne : d.unminimized_path ≠ [] := by rw [hpath]; simp
    have htop := hg.top_fresh hne
    have hflag : (getV d.arena (endOf 0 d.unminimized_path.reverse)).is_accepting = true := by
      rw [← below_eq_endOf, htop]
    have := chain_lang hg.inv.chain hflag p
    refine this ?_
    refine List.mem_cons_of_mem _ ?_
    rw [List.map_reverse, List.mem_reverse]
    exact hp

theorem below_mem {path : List (Nat × Nat)} (h : path ≠ []) :
    below path ∈ path.map Prod.fst := by
  cases path with
  | nil => exact absurd rfl h
  | cons e t =>
    obtain ⟨p, c⟩ := e
    rw [below, List.map_cons]
    exact List.mem_cons_self _ _

/-! ### One insertion preserves the between-insertions description -/

theorem good_insert {d : dagger} {ws : List Word} {w : Word}
    (hg : Good d ws) (hlt : lex_lt d.prev_word w = true) :
    Good (insert d w) (ws ++ [w]) := by
  obtain ⟨prev, A, path, reg⟩ := d
  have hspell : path.map Prod.snd = prev.reverse := hg.spell
  have hinv : Inv A path reg := hg.inv
  have hlang : ∀ s, accepts A 0 s = true ↔ s ∈ ws := hg.lang
  have hlt' : lex_lt prev w = true := hlt
  have hplang : ∀ p ∈ path.map Prod.fst, ∃ w', accepts A p w' = true :=
    good_path_lang hg
  have hm : path.length = prev.length := by
    have := congrArg List.length hspell
    simpa using this
  obtain ⟨m1, m2, m3, m4, m5, m6⟩ :=
    minimize_go_master (common_prefix_len prev w) path A reg hinv hplang
  have hpdrop : (minimize_go (common_prefix_len prev w) path A reg).2.2
      = path.drop (path.length - common_prefix_len prev w) :=
    minimize_go_path _ path A reg
  set cpl := common_prefix_len prev w with hcpl
  set r := minimize_go cpl path A reg with hrdef
  set A1 := r.1 with hA1def
  set reg1 := r.2.1 with hreg1def
  set path1 := r.2.2 with hpath1def
  set suffix := w.drop cpl with hsufdef
  have hcplp : cpl ≤ prev.length := cpl_le_left prev w
  have hcplw : cpl ≤ w.length := cpl_le_right prev w
  -- the suffix is nonempty and strictly above every label on the attach vertex
  have hsufb : ∃ b wtl, suffix = b :: wtl ∧
      (∀ e ∈ (getV A1 (below path1)).edges, e.1 < b) := by
    rcases lex_cases hlt' with ⟨hpe, b, wtl, hwd⟩ | ⟨a, ptl, b, wtl, hpd, hwd, hab⟩
    · -- the previous word is a proper stem of w: the attach vertex is fresh
      rw [← hcpl] at hpe hwd
      have hcplm : cpl = prev.length := by
        have := List.drop_eq_nil_iff.mp hpe
        omega
      have hpath1eq : path1 = path := by
        rw [hpdrop]
        have h0 : path.length - cpl = 0 := by omega
        rw [h0, List.drop_zero]
      have hedges0 : (getV A (below path)).edges = [] := by
        by_cases hpn : path = []
        · rw [hpn]
          exact hg.root_edges hpn
        · rw [hg.top_fresh hpn]
      refine ⟨b, wtl, by rw [hsufdef, hwd], ?_⟩
      intro e he
      exfalso
      have hmem : e.1 ∈ (getV A1 (below path1)).edges.map Prod.fst :=
        List.mem_map.mpr ⟨e, he, rfl⟩
      rw [m5, hpath1eq, hedges0] at hmem
      cases hmem
    · -- proper branch: labels on the attach vertex are at most prev's next byte
      rw [← hcpl] at hpd hwd
      have hcpllt : cpl < prev.length := by
        have hlend := congrArg List.length hpd
        rw [List.length_drop] at hlend
        simp at hlend
        omega
      have hrev : path.reverse
          = (path.drop (path.length - cpl)).reverse
            ++ (path.take (path.length - cpl)).reverse := by
        rw [← List.reverse_append, List.take_append_drop]
      have hchain := hinv.chain
      rw [hrev] at hchain
      obtain ⟨hcA, hcB⟩ := chainOK_append.mp hchain
      rw [← below_eq_endOf, ← hpdrop] at hcB
      have h1 : (path.reverse).map Prod.snd = prev := by
        rw [List.map_reverse, hspell, List.reverse_reverse]
      rw [hrev, List.map_append] at h1
      have hlenX : (((path.drop (path.length - cpl)).reverse).map Prod.snd).length
          = cpl := by
        simp
        omega
      have h2 : prev.drop cpl
          = ((path.take (path.length - cpl)).reverse).map Prod.snd := by
        have hdl := List.drop_left
          (((path.drop (path.length - cpl)).reverse).map Prod.snd)
          (((path.take (path.length - cpl)).reverse).map Prod.snd)
        rw [hlenX] at hdl
        rw [← h1]
        exact hdl
      have hprevsplit : ((path.take (path.length - cpl)).reverse).map Prod.snd
          = a :: ptl := by
        rw [← h2, hpd]
      cases hx : (path.take (path.length - cpl)).reverse with
      | nil => rw [hx] at hprevsplit; cases hprevsplit
      | cons e0 L0 =>
        rw [hx] at hcB hprevsplit
        rw [List.map_cons] at hprevsplit
        have he0a : e0.2 = a := (List.cons.injEq .. ▸ hprevsplit).1
        obtain ⟨-, hlab, -, -⟩ := hcB
        refine ⟨b, wtl, by rw [hsufdef, hwd], ?_⟩
        intro e he
        have hmem : e.1 ∈ (getV A1 (below path1)).edges.map Prod.fst :=
          List.mem_map.mpr ⟨e, he, rfl⟩
        rw [m5] at hmem
        obtain ⟨e', he', hee⟩ := List.mem_map.mp hmem
        have hb1 : e'.1 ≤ e0.2 := hlab e' he'
        rw [hee, he0a] at hb1
        omega
  obtain ⟨b, wtl, hwd, hfrB⟩ := hsufb
  have hsufne : suffix ≠ [] := by rw [hwd]; simp
  obtain ⟨k1, k2, k3, k4, k5, k6, k7, k8⟩ :=
    add_chain_master suffix A1 path1 reg1 m1
      (fun ch tail hst e he => by
        rw [hwd] at hst
        have hbc : b = ch := (List.cons.injEq .. ▸ hst).1
        rw [← hbc]
        exact hfrB e he)
  set r2 := add_chain suffix (below path1) A1 path1 with hr2def
  set path2 := r2.2.1 with hpath2def
  set f := r2.2.2 with hfdef
  set AF := mark_end r2.1 f with hAFdef
  have hins : insert ⟨prev, A, path, reg⟩ w = ⟨w, AF, path2, reg1⟩ := rfl
  -- the new path spells w
  have hpath1snd : path1.map Prod.snd = (w.take cpl).reverse := by
    rw [hpdrop, List.map_drop, hspell, List.drop_reverse, hm]
    have h0 : prev.length - (prev.length - cpl) = cpl := by omega
    rw [h0, hcpl, common_prefix_take]
  have hspell2 : path2.map Prod.snd = w.reverse := by
    rw [k2, hpath1snd, hsufdef, ← List.reverse_append, List.take_append_drop]
  have hpath2ne : path2 ≠ [] := by
    intro h
    rw [h, List.map_nil] at hspell2
    have hw0 : w.reverse = [] := hspell2.symm
    rw [List.reverse_eq_nil_iff] at hw0
    rw [hsufdef, hw0] at hwd
    simp at hwd
  have hf : f = below path2 := k3
  have hfmem : f ∈ path2.map Prod.fst := by
    rw [hf]
    exact below_mem hpath2ne
  have hflt : f < r2.1.length := by
    rw [hf]
    exact below_lt k1
  have hfreg : f ∉ reg1 := fun h => k1.reg_path_disj f h hfmem
  have hInvF : Inv AF path2 reg1 := Inv_mark k1 hflt hfreg
  have hw2 : path2.reverse.map Prod.snd = w := by
    rw [List.map_reverse, hspell2, List.reverse_reverse]
  have hwalkw : walk r2.1 0 w = some f := by
    have hcw := chainOK_walk k1.chain
    rw [← below_eq_endOf, ← hf, hw2] at hcw
    exact hcw
  have hwalkchar : ∀ s, walk r2.1 0 s = some f → s = w := by
    intro s hx
    have htopc : ∀ e ∈ (getV r2.1 (endOf 0 path2.reverse)).edges, e.2 ∈ reg1 := by
      rw [← below_eq_endOf]
      exact k1.top_closed
    rcases walk_class k1.reg_closed s 0 path2.reverse k1.chain htopc f hx with
      h | ⟨kk, hkk, hs, hxe⟩
    · exact absurd h hfreg
    · have h0r : (0 : Nat) ∉ path2.reverse.map Prod.fst := by
        rw [List.map_reverse, List.mem_reverse]
        exact k1.root_not_path
      have hndr : (path2.reverse.map Prod.fst).Nodup := by
        rw [List.map_reverse]
        exact List.nodup_reverse.mpr k1.path_nodup
      have hfull : endOf 0 (path2.reverse.take path2.reverse.length) = f := by
        rw [List.take_length, ← below_eq_endOf, hf]
      have hkeq : kk = path2.reverse.length :=
        endOf_take_inj h0r hndr hkk (le_refl _) (hxe.symm.trans hfull.symm)
      rw [hkeq, List.take_length] at hs
      rw [hs]
      exact hw2
  have hlangF : ∀ s, accepts AF 0 s = true ↔ s ∈ ws ++ [w] := by
    intro s
    rw [hAFdef, accepts_mark hflt 0 s]
    have hroot1 : (0 : Nat) < A1.length := by
      rw [m4]
      exact hinv.root_lt
    have hacc1 : accepts r2.1 0 s = accepts A 0 s := by
      rw [k4 0 hroot1 s, m2 0 s]
    rw [hacc1, Bool.or_eq_true, decide_eq_true_eq, List.mem_append, List.mem_singleton]
    constructor
    · intro h
      rcases h with h | h
      · exact Or.inl ((hlang s).mp h)
      · exact Or.inr (hwalkchar s h)
    · intro h
      rcases h with h | h
      · exact Or.inl ((hlang s).mpr h)
      · exact Or.inr (by rw [h]; exact hwalkw)
  rw [hins]
  refine ⟨hInvF, hspell2, ?_, ?_, ?_, hlangF⟩
  · show w = (ws ++ [w]).getLastD []
    rw [List.getLastD_concat]
  · intro hne
    show getV AF (below path2) = ⟨[], true⟩
    rw [← hf]
    have hfrec : getV AF f = ⟨(getV r2.1 f).edges, true⟩ := by
      rw [hAFdef, mark_end]
      exact getV_setV_self _ _ _ hflt
    rw [hfrec, k8 hsufne]
  · intro h
    exact absurd h hpath2ne

/-! ### The initial state and the first insertion of the empty word -/

theorem good_empty : Good empty_dagger [] := by
  refine ⟨⟨?_, ?_, ?_, ?_, ?_, ?_, ?_, ?_, ?_, ?_, ?_, ?_, ?_, ?_, ?_, ?_⟩,
    rfl, rfl, ?_, ?_, ?_⟩
  · simp [empty_dagger]
  · intro p hp
    cases hp
  · intro q hq
    cases hq
  · intro i e he
    exfalso
    cases i with
    | zero => cases he
    | succ n =>
      rw [show getV empty_dagger.arena (n + 1) = getV [] n from rfl] at he
      rw [show getV ([] : List vertex) n = ⟨[], false⟩ from rfl] at he
      cases he
  · intro i
    cases i with
    | zero => exact List.Pairwise.nil
    | succ n =>
      rw [show getV empty_dagger.arena (n + 1) = getV [] n from rfl]
      rw [show getV ([] : List vertex) n = ⟨[], false⟩ from rfl]
      exact List.Pairwise.nil
  · trivial
  · intro e he
    cases he
  · intro q hq
    cases hq
  · exact List.nodup_nil
  · intro h
    cases h
  · intro q hq
    cases hq
  · exact List.nodup_nil
  · intro h
    cases h
  · intro q hq
    cases hq
  · intro q hq
    cases hq
  · intro q1 h1
    cases h1
  · intro h
    exact absurd rfl h
  · intro _
    rfl
  · intro s
    constructor
    · intro h
      exfalso
      cases s with
      | nil => cases h
      | cons c rest =>
        rw [accepts] at h
        rw [show lookupE (getV empty_dagger.arena 0).edges c = none from rfl] at h
        cases h
    · intro h
      cases h

theorem good_insert_nil {d : dagger} (hg : Good d []) :
    Good (insert d []) [[]] := by
  obtain ⟨prev, A, path, reg⟩ := d
  have hprev : prev = [] := hg.prev_last
  have hpath : path = [] := by
    have hs := hg.spell
    rw [hprev] at hs
    simp at hs
    exact hs
  have hroote : (getV A 0).edges = [] := hg.root_edges hpath
  have hinv : Inv A path reg := hg.inv
  subst hprev
  subst hpath
  have hins : insert ⟨[], A, [], reg⟩ [] = ⟨[], mark_end A 0, [], reg⟩ := rfl
  rw [hins]
  have hInvF : Inv (mark_end A 0) [] reg :=
    Inv_mark hinv hinv.root_lt hinv.reg_not_root
  refine ⟨hInvF, rfl, rfl, ?_, ?_, ?_⟩
  · intro h
    exact absurd rfl h
  · intro _
    rw [edges_mark]
    exact hroote
  · intro s
    rw [accepts_mark hinv.root_lt 0 s]
    have hfalse : accepts A 0 s = false := by
      cases hacc : accepts A 0 s with
      | false => rfl
      | true => exact absurd ((hg.lang s).mp hacc) (List.not_mem_nil s)
    rw [hfalse]
    simp only [Bool.false_or, decide_eq_true_eq, List.mem_singleton]
    constructor
    · intro h
      cases s with
      | nil => rfl
      | cons c rest =>
        exfalso
        rw [walk] at h
        rw [hroote] at h
        rw [show lookupE ([] : List (Nat × Nat)) c = none from rfl] at h
        cases h
    · intro h
      rw [h]
      rfl

/-! ### The whole sorted fold -/

theorem sorted_concat {l : List Word} {w : Word}
    (h : sorted_words (l ++ [w]) = true) :
    sorted_words l = true ∧ (l = [] ∨ lex_lt (l.getLastD []) w = true) := by
  induction l with
  | nil => exact ⟨rfl, Or.inl rfl⟩
  | cons x t ih =>
    cases t with
    | nil =>
      rw [List.cons_append, List.nil_append] at h
      rw [sorted_words] at h
      simp at h
      exact ⟨rfl, Or.inr h.1⟩
    | cons y t2 =>
      rw [List.cons_append] at h
      rw [show (y :: t2) ++ [w] = y :: (t2 ++ [w]) from rfl] at h
      rw [sorted_words] at h
      simp at h
      obtain ⟨hxy, hrest⟩ := h
      obtain ⟨h1, h2⟩ := ih (by rw [List.cons_append]; exact hrest)
      refine ⟨?_, ?_⟩
      · rw [sorted_words]
        simp [hxy, h1]
      · rcases h2 with h2 | h2
        · cases h2
        · exact Or.inr h2

theorem good_fold : ∀ ws : List Word, sorted_words ws = true →
    Good (ws.foldl insert empty_dagger) ws := by
  intro ws
  induction ws using List.reverseRecOn with
  | nil => intro _; exact good_empty
  | append_singleton l w ih =>
    intro h
    obtain ⟨h1, h2⟩ := sorted_concat h
    rw [List.foldl_append, List.foldl_cons, List.foldl_nil]
    rcases h2 with h2 | h2
    · subst h2
      rw [List.foldl_nil]
      cases hw : w with
      | nil =>
        rw [← hw]
        rw [hw]
        exact good_insert_nil good_empty
      | cons c rest =>
        rw [← hw]
        refine good_insert good_empty ?_
        rw [show empty_dagger.prev_word = [] from rfl]
        exact lex_lt_nil (by rw [hw]; simp)
    · refine good_insert (ih h1) ?_
      rw [(ih h1).prev_last]
      exact h2

/-- The final flush: afterwards the path is empty, the invariant holds, and
the language is unchanged. -/
theorem good_finish {d : dagger} {ws : List Word} (hg : Good d ws) :
    Inv (finish_minimization d).arena (finish_minimization d).unminimized_path
        (finish_minimization d).minimized_vertices ∧
    (finish_minimization d).unminimized_path = [] ∧
    (∀ s, accepts (finish_minimization d).arena 0 s = true ↔ s ∈ ws) := by
  obtain ⟨prev, A, path, reg⟩ := d
  obtain ⟨m1, m2, m3, m4, m5, m6⟩ :=
    minimize_go_master 0 path A reg hg.inv (good_path_lang hg)
  have hpath : (minimize_go 0 path A reg).2.2 = [] := by
    rw [minimize_go_path 0 path A reg]
    simp
  have hfin : finish_minimization ⟨prev, A, path, reg⟩
      = ⟨prev, (minimize_go 0 path A reg).1, (minimize_go 0 path A reg).2.2,
          (minimize_go 0 path A reg).2.1⟩ := rfl
  rw [hfin]
  refine ⟨m1, hpath, ?_⟩
  intro s
  rw [show (⟨prev, (minimize_go 0 path A reg).1, (minimize_go 0 path A reg).2.2,
      (minimize_go 0 path A reg).2.1⟩ : dagger).arena = (minimize_go 0 path A reg).1 from rfl]
  rw [m2 0 s]
  exact hg.lang s

/-- The language of the completed automaton is exactly the dictionary. -/
theorem from_dictionary_lang {ws : List Word} (h : sorted_words ws = true) :
    ∀ s, contains (from_dictionary ws) s = true ↔ s ∈ ws := by
  intro s
  obtain ⟨-, -, hl⟩ := good_finish (good_fold ws h)
  rw [contains]
  exact hl s

/-! ### Claim theorems -/

/-- C1: for every finite sequence of words presented in strictly ascending
byte-wise lexicographic order, after building the automaton with
from_dictionary, contains(w) returns true for every word w of the input
sequence. -/
theorem membership_correct (ws : List Word) (w : Word)
    (hs : sorted_words ws = true) (hw : w ∈ ws) :
    contains (from_dictionary ws) w = true :=
  (from_dictionary_lang hs w).mpr hw

theorem membership_correct_witness :
    sorted_words [[1], [1, 2], [2]] = true ∧ [1, 2] ∈ [[1], [1, 2], [2]] ∧
    contains (from_dictionary [[1], [1, 2], [2]]) [1, 2] = true :=
  ⟨by decide, by decide, membership_correct [[1], [1, 2], [2]] [1, 2] (by decide) (by decide)⟩

/-- C2: for every finite sequence of words presented in strictly ascending
byte-wise lexicographic order, after building the automaton with
from_dictionary, contains(s) returns false for every string s that is not
one of the input words: the automaton accepts exactly the input language. -/
theorem negative_correct (ws : List Word) (s : Word)
    (hs : sorted_words ws = true) (hw : s ∉ ws) :
    contains (from_dictionary ws) s = false := by
  cases h : contains (from_dictionary ws) s with
  | false => rfl
  | true => exact absurd ((from_dictionary_lang hs s).mp h) hw

theorem negative_correct_witness :
    sorted_words [[1], [1, 2], [2]] = true ∧ [1, 3] ∉ [[1], [1, 2], [2]] ∧
    contains (from_dictionary [[1], [1, 2], [2]]) [1, 3] = false :=
  ⟨by decide, by decide, negative_correct [[1], [1, 2], [2]] [1, 3] (by decide) (by decide)⟩

/-- C7: building from an empty sequence of words yields an automaton in
which contains(s) is false for every string s, the empty string included,
since the root is accepting only if the empty string was inserted. -/
theorem empty_dictionary (s : Word) :
    contains (from_dictionary []) s = false := by
  cases h : contains (from_dictionary []) s with
  | false => rfl
  | true => exact absurd ((from_dictionary_lang (show sorted_words [] = true from rfl) s).mp h) (List.not_mem_nil s)

/-- C9: contains is read-only: the state-threading form of the walk returns
the automaton state unchanged and agrees with the pure function, and two
successive calls with the same word return the same boolean. -/
theorem contains_readonly :
    (∀ (d : dagger) (w : Word), contains_st d w = (contains d w, d)) ∧
    (∀ (d : dagger) (w : Word),
      (contains_st (contains_st d w).2 w).1 = (contains_st d w).1) := by
  have hgo : ∀ (d : dagger) (w : Word) (i : Nat),
      contains_go d i w = (accepts d.arena i w, d) := by
    intro d w
    induction w with
    | nil => intro i; rfl
    | cons c rest ih =>
      intro i
      rw [contains_go, accepts]
      cases lookupE (getV d.arena i).edges c with
      | none => rfl
      | some j => exact ih j
  have h1 : ∀ (d : dagger) (w : Word), contains_st d w = (contains d w, d) := by
    intro d w
    rw [contains_st, contains]
    exact hgo d w 0
  refine ⟨h1, ?_⟩
  intro d w
  rw [h1 d w]
  rw [h1 d w]

/-- mark_word_end on an already accepting vertex changes nothing. -/
theorem mark_end_id {A : List vertex} {f : Nat}
    (h : (getV A f).is_accepting = true) : mark_end A f = A := by
  rw [mark_end, ← h]
  exact setV_getV_self A f

/-- Inserting a word again immediately after inserting it leaves the whole
state unchanged. -/
theorem insert_again {d : dagger} {ws : List Word} {w : Word}
    (hg : Good d (ws ++ [w])) : insert d w = d := by
  obtain ⟨prev, A, path, reg⟩ := d
  have hprev : prev = w := by
    have := hg.prev_last
    rw [List.getLastD_concat] at this
    exact this
  subst hprev
  have hspell : path.map Prod.snd = prev.reverse := hg.spell
  have hlen : path.length = prev.length := by
    have := congrArg List.length hspell
    simpa using this
  have hcpl : common_prefix_len prev prev = prev.length := cpl_self prev
  have h1 : insert ⟨prev, A, path, reg⟩ prev
      = add_suffix (minimize_until ⟨prev, A, path, reg⟩ (common_prefix_len prev prev))
          (prev.drop (common_prefix_len prev prev)) := rfl
  have h2 : minimize_until ⟨prev, A, path, reg⟩ (common_prefix_len prev prev)
      = ⟨prev, A, path, reg⟩ := by
    show (⟨prev, (minimize_go (common_prefix_len prev prev) path A reg).1,
      (minimize_go (common_prefix_len prev prev) path A reg).2.2,
      (minimize_go (common_prefix_len prev prev) path A reg).2.1⟩ : dagger)
      = ⟨prev, A, path, reg⟩
    rw [minimize_go_stop A reg (by omega)]
  have h3 : prev.drop (common_prefix_len prev prev) = [] := by
    rw [hcpl, List.drop_length]
  rw [h1, h2, h3]
  have h4 : add_suffix (⟨prev, A, path, reg⟩ : dagger) []
      = ⟨prev, mark_end A (below path), path, reg⟩ := rfl
  rw [h4]
  have hacc : (getV A (below path)).is_accepting = true := by
    have hwin : accepts A 0 prev = true :=
      (hg.lang prev).mpr (by rw [List.mem_append, List.mem_singleton]; exact Or.inr rfl)
    have hw2 : path.reverse.map Prod.snd = prev := by
      rw [List.map_reverse, hspell, List.reverse_reverse]
    rw [accepts_eq_walk] at hwin
    have hcw := chainOK_walk hg.inv.chain
    rw [hw2] at hcw
    rw [hcw] at hwin
    rw [← below_eq_endOf] at hwin
    simpa using hwin
  rw [mark_end_id hacc]

/-- C5: inserting the same word twice in immediate succession creates no new
vertices, only re-marks the already existing word-end vertex (top of path,
or the root when the path is empty) as accepting, and yields an automaton
accepting the same language with the same vertex count: the whole state is
unchanged. -/
theorem duplicate_insert (ws : List Word) (w : Word)
    (h : sorted_words (ws ++ [w]) = true) :
    insert ((ws ++ [w]).foldl insert empty_dagger) w
        = (ws ++ [w]).foldl insert empty_dagger ∧
    (insert ((ws ++ [w]).foldl insert empty_dagger) w).arena.length
        = ((ws ++ [w]).foldl insert empty_dagger).arena.length ∧
    (∀ s, contains (insert ((ws ++ [w]).foldl insert empty_dagger) w) s
        = contains ((ws ++ [w]).foldl insert empty_dagger) s) := by
  have hid := insert_again (good_fold (ws ++ [w]) h)
  exact ⟨hid, by rw [hid], fun s => by rw [hid]⟩

theorem duplicate_insert_witness :
    sorted_words ([[1]] ++ [[1, 2]]) = true ∧
    insert (([[1]] ++ [[1, 2]]).foldl insert empty_dagger) [1, 2]
        = ([[1]] ++ [[1, 2]]).foldl insert empty_dagger :=
  ⟨by decide, (duplicate_insert [[1]] [1, 2] (by decide)).1⟩

/-- C10: under strictly ascending input, immediately after each call to
insert(w) the unminimized path contains exactly length(w) entries whose
incoming-edge labels, read from the bottom of the path to the top, spell w;
and the depth argument passed to minimize_until at the next insertion, the
common prefix length, never exceeds the current path size. -/
theorem path_spells_word (ws : List Word) (w : Word)
    (h : sorted_words (ws ++ [w]) = true) :
    ((ws ++ [w]).foldl insert empty_dagger).unminimized_path.length = w.length ∧
    ((ws ++ [w]).foldl insert empty_dagger).unminimized_path.reverse.map Prod.snd
        = w ∧
    (∀ next : Word,
      common_prefix_len ((ws ++ [w]).foldl insert empty_dagger).prev_word next
        ≤ ((ws ++ [w]).foldl insert empty_dagger).unminimized_path.length) := by
  have hg := good_fold (ws ++ [w]) h
  have hprev : ((ws ++ [w]).foldl insert empty_dagger).prev_word = w := by
    have := hg.prev_last
    rw [List.getLastD_concat] at this
    exact this
  have hspell := hg.spell
  rw [hprev] at hspell
  have hlen : ((ws ++ [w]).foldl insert empty_dagger).unminimized_path.length
      = w.length := by
    have := congrArg List.length hspell
    simpa using this
  refine ⟨hlen, ?_, ?_⟩
  · rw [List.map_reverse, hspell, List.reverse_reverse]
  · intro next
    rw [hprev, hlen]
    exact cpl_le_left w next

theorem path_spells_word_witness :
    sorted_words ([[1]] ++ [[1, 2]]) = true ∧
    (([[1]] ++ [[1, 2]]).foldl insert empty_dagger).unminimized_path.length
        = ([1, 2] : Word).length :=
  ⟨by decide, (path_spells_word [[1]] [1, 2] (by decide)).1⟩

/-- C4: minimize_until(d) pops entries off the unminimized path in LIFO
order, deepest first, until the path has at most d entries; for each popped
entry (v, label), if an equivalent vertex is found in the registry then the
new parent (the entry now on top of the path, or the root when the path is
empty) gets its transition for label redirected to that canonical vertex
and v is discarded, otherwise v itself is inserted into the registry; and
finish_minimization is exactly minimize_until(0). -/
theorem minimize_until_spec :
    (∀ d : dagger, finish_minimization d = minimize_until d 0) ∧
    (∀ (A : List vertex) (rest : List (Nat × Nat)) (c q : Nat),
      redirect A rest c q = update_edge A (below rest) c q) ∧
    (∀ (d : dagger) (u : Nat),
      (minimize_until d u).unminimized_path
        = d.unminimized_path.drop (d.unminimized_path.length - u)) ∧
    (∀ (d : dagger) (u : Nat), d.unminimized_path.length ≤ u →
      minimize_until d u = d) ∧
    (∀ (d : dagger) (u : Nat) (v c : Nat) (rest : List (Nat × Nat)),
      d.unminimized_path = (v, c) :: rest → ¬ rest.length + 1 ≤ u →
      minimize_until d u =
        match find_equiv d.arena d.minimized_vertices v with
        | some q => minimize_until
            ⟨d.prev_word, redirect d.arena rest c q, rest, d.minimized_vertices⟩ u
        | none => minimize_until
            ⟨d.prev_word, d.arena, rest, v :: d.minimized_vertices⟩ u) := by
  refine ⟨fun d => rfl, redirect_eq, ?_, ?_, ?_⟩
  · intro d u
    exact minimize_go_path u d.unminimized_path d.arena d.minimized_vertices
  · intro d u h
    obtain ⟨pw, A, pa, reg⟩ := d
    show (⟨pw, (minimize_go u pa A reg).1, (minimize_go u pa A reg).2.2,
      (minimize_go u pa A reg).2.1⟩ : dagger) = ⟨pw, A, pa, reg⟩
    rw [minimize_go_stop A reg h]
  · intro d u v c rest hpath hle
    obtain ⟨pw, A, pa, reg⟩ := d
    have hpa : pa = (v, c) :: rest := hpath
    subst hpa
    show (⟨pw, (minimize_go u ((v, c) :: rest) A reg).1,
      (minimize_go u ((v, c) :: rest) A reg).2.2,
      (minimize_go u ((v, c) :: rest) A reg).2.1⟩ : dagger) = _
    rw [minimize_go, if_neg hle]
    cases find_equiv A reg v with
    | some q => rfl
    | none => rfl

theorem minimize_until_spec_witness :
    (∀ d : dagger, finish_minimization d = minimize_until d 0) ∧
    minimize_until ⟨[1], [⟨[(1, 1)], false⟩, ⟨[], true⟩], [(1, 1)], []⟩ 1
      = ⟨[1], [⟨[(1, 1)], false⟩, ⟨[], true⟩], [(1, 1)], []⟩ :=
  ⟨minimize_until_spec.1,
    minimize_until_spec.2.2.2.1 ⟨[1], [⟨[(1, 1)], false⟩, ⟨[], true⟩], [(1, 1)], []⟩ 1
      (by decide)⟩

/-! ### Termination bound: fuel-counted construction -/

theorem insert_unfold (d : dagger) (w : Word) :
    insert d w = ⟨w,
      mark_end (add_chain (w.drop (common_prefix_len d.prev_word w))
        (below (minimize_go (common_prefix_len d.prev_word w) d.unminimized_path
            d.arena d.minimized_vertices).2.2)
        (minimize_go (common_prefix_len d.prev_word w) d.unminimized_path
            d.arena d.minimized_vertices).1
        (minimize_go (common_prefix_len d.prev_word w) d.unminimized_path
            d.arena d.minimized_vertices).2.2).1
      (add_chain (w.drop (common_prefix_len d.prev_word w))
        (below (minimize_go (common_prefix_len d.prev_word w) d.unminimized_path
            d.arena d.minimized_vertices).2.2)
        (minimize_go (common_prefix_len d.prev_word w) d.unminimized_path
            d.arena d.minimized_vertices).1
        (minimize_go (common_prefix_len d.prev_word w) d.unminimized_path
            d.arena d.minimized_vertices).2.2).2.2,
      (add_chain (w.drop (common_prefix_len d.prev_word w))
        (below (minimize_go (common_prefix_len d.prev_word w) d.unminimized_path
            d.arena d.minimized_vertices).2.2)
        (minimize_go (common_prefix_len d.prev_word w) d.unminimized_path
            d.arena d.minimized_vertices).1
        (minimize_go (common_prefix_len d.prev_word w) d.unminimized_path
            d.arena d.minimized_vertices).2.2).2.1,
      (minimize_go (common_prefix_len d.prev_word w) d.unminimized_path
          d.arena d.minimized_vertices).2.1⟩ := rfl

theorem minimize_go_fuel_nil (fuel u : Nat) (A : List vertex) (reg : List Nat) :
    minimize_go_fuel fuel u [] A reg = some (fuel, A, reg, []) := by
  cases fuel with
  | zero => rfl
  | succ n => rfl

theorem minimize_go_fuel_cons (fuel u v c : Nat) (rest : List (Nat × Nat))
    (A : List vertex) (reg : List Nat) :
    minimize_go_fuel fuel u ((v, c) :: rest) A reg
      = if rest.length + 1 ≤ u then some (fuel, A, reg, (v, c) :: rest)
        else
          match fuel with
          | 0 => none
          | fuel + 1 =>
            match find_equiv A reg v with
            | some q => minimize_go_fuel fuel u rest (redirect A rest c q) reg
            | none => minimize_go_fuel fuel u rest A (v :: reg) := by
  cases fuel with
  | zero => rfl
  | succ n => rfl

theorem minimize_go_fuel_enough :
    ∀ (path : List (Nat × Nat)) (A : List vertex) (reg : List Nat) (u fuel : Nat),
      path.length ≤ fuel →
      ∃ f2, minimize_go_fuel fuel u path A reg
          = some (f2, minimize_go u path A reg) ∧
        fuel ≤ f2 + path.length := by
  intro path
  induction path with
  | nil =>
    intro A reg u fuel _
    refine ⟨fuel, ?_, by omega⟩
    rw [minimize_go_fuel_nil, minimize_go]
  | cons e rest ih =>
    obtain ⟨v, c⟩ := e
    intro A reg u fuel h
    rw [List.length_cons] at h
    by_cases hle : rest.length + 1 ≤ u
    · refine ⟨fuel, ?_, by rw [List.length_cons]; omega⟩
      rw [minimize_go_fuel_cons, minimize_go, if_pos hle, if_pos hle]
    · cases fuel with
      | zero => omega
      | succ fuel =>
        rw [minimize_go_fuel_cons, minimize_go, if_neg hle, if_neg hle]
        cases find_equiv A reg v with
        | some q =>
          obtain ⟨f2, h1, h2⟩ := ih (redirect A rest c q) reg u fuel (by omega)
          exact ⟨f2, h1, by rw [List.length_cons]; omega⟩
        | none =>
          obtain ⟨f2, h1, h2⟩ := ih A (v :: reg) u fuel (by omega)
          exact ⟨f2, h1, by rw [List.length_cons]; omega⟩

theorem add_chain_fuel_enough :
    ∀ (suffix : List Nat) (parent : Nat) (A : List vertex)
      (path : List (Nat × Nat)) (fuel : Nat),
      suffix.length ≤ fuel →
      add_chain_fuel fuel suffix parent A path
        = some (fuel - suffix.length, add_chain suffix parent A path) := by
  intro suffix
  induction suffix with
  | nil =>
    intro parent A path fuel _
    rw [add_chain_fuel, add_chain]
    simp
  | cons c rest ih =>
    intro parent A path fuel h
    cases fuel with
    | zero => rw [List.length_cons] at h; omega
    | succ fuel =>
      rw [add_chain_fuel, add_chain]
      rw [ih _ _ _ fuel (by rw [List.length_cons] at h; omega)]
      rw [List.length_cons]
      have harith : fuel + 1 - (rest.length + 1) = fuel - rest.length := by omega
      rw [harith]

theorem add_chain_path_len :
    ∀ (suffix : List Nat) (parent : Nat) (A : List vertex)
      (path : List (Nat × Nat)),
      (add_chain suffix parent A path).2.1.length = suffix.length + path.length := by
  intro suffix
  induction suffix with
  | nil =>
    intro parent A path
    rw [add_chain]
    simp
  | cons c rest ih =>
    intro parent A path
    rw [add_chain, ih]
    rw [List.length_cons, List.length_cons]
    omega

theorem insert_fuel_eq_some {fuel : Nat} {d : dagger} {w : Word}
    {f2 : Nat} {A1 : List vertex} {reg1 : List Nat} {path1 : List (Nat × Nat)}
    (h1 : minimize_go_fuel fuel (common_prefix_len d.prev_word w)
      d.unminimized_path d.arena d.minimized_vertices = some (f2, A1, reg1, path1))
    {f3 : Nat} {A2 : List vertex} {path2 : List (Nat × Nat)} {last : Nat}
    (h2 : add_chain_fuel f2 (w.drop (common_prefix_len d.prev_word w))
      (below path1) A1 path1 = some (f3, A2, path2, last)) :
    insert_fuel fuel d w = some (f3, ⟨w, mark_end A2 last, path2, reg1⟩) := by
  simp only [insert_fuel, h1, h2]

theorem insert_fuel_spec (d : dagger) (w : Word) (fuel : Nat)
    (h : d.unminimized_path.length + w.length ≤ fuel) :
    ∃ fuel3, insert_fuel fuel d w = some (fuel3, insert d w) ∧
      fuel ≤ fuel3 + d.unminimized_path.length + w.length ∧
      (insert d w).unminimized_path.length ≤ w.length := by
  obtain ⟨pw, A, path, reg⟩ := d
  have hlen : path.length + w.length ≤ fuel := h
  obtain ⟨f2, hf2, hf2b⟩ :=
    minimize_go_fuel_enough path A reg (common_prefix_len pw w) fuel (by omega)
  have hpathdrop := minimize_go_path (common_prefix_len pw w) path A reg
  rcases hmin : minimize_go (common_prefix_len pw w) path A reg with ⟨A1, reg1, path1⟩
  rw [hmin] at hf2 hpathdrop
  have hp1 : path1.length ≤ common_prefix_len pw w := by
    have := congrArg List.length hpathdrop
    rw [List.length_drop] at this
    simp at this
    omega
  have hcplw := cpl_le_right pw w
  have hsufflen : (w.drop (common_prefix_len pw w)).length
      = w.length - common_prefix_len pw w := List.length_drop _ _
  have hsufle : (w.drop (common_prefix_len pw w)).length ≤ f2 := by omega
  have hch := add_chain_fuel_enough (w.drop (common_prefix_len pw w))
    (below path1) A1 path1 f2 hsufle
  rcases hcr : add_chain (w.drop (common_prefix_len pw w)) (below path1) A1 path1
    with ⟨A2, path2, last⟩
  rw [hcr] at hch
  have hins : insert ⟨pw, A, path, reg⟩ w = ⟨w, mark_end A2 last, path2, reg1⟩ := by
    rw [insert_unfold]
    simp only [hmin]
    simp only [hcr]
  have hp2len : path2.length ≤ w.length := by
    have := add_chain_path_len (w.drop (common_prefix_len pw w)) (below path1) A1 path1
    rw [hcr] at this
    simp at this
    omega
  refine ⟨f2 - (w.drop (common_prefix_len pw w)).length, ?_, ?_, ?_⟩
  · rw [insert_fuel_eq_some hf2 hch, hins]
  · show fuel ≤ f2 - (w.drop (common_prefix_len pw w)).length + path.length + w.length
    omega
  · rw [hins]
    exact hp2len

theorem total_len_cons (w : Word) (ws : List Word) :
    total_len (w :: ws) = w.length + total_len ws := by
  simp [total_len]

theorem fuel_go_enough :
    ∀ (rem : List Word) (d : dagger) (fuel : Nat),
      d.unminimized_path.length + 2 * total_len rem ≤ fuel →
      from_dictionary_fuel_go fuel d rem
        = some (finish_minimization (rem.foldl insert d)) := by
  intro rem
  induction rem with
  | nil =>
    intro d fuel h
    obtain ⟨pw, A, path, reg⟩ := d
    have hle : path.length ≤ fuel := by
      simp [total_len] at h
      omega
    obtain ⟨f2, hf2, -⟩ := minimize_go_fuel_enough path A reg 0 fuel hle
    rw [List.foldl_nil]
    simp only [from_dictionary_fuel_go, hf2]
    rfl
  | cons w rest ih =>
    intro d fuel h
    rw [total_len_cons] at h
    have hlen : d.unminimized_path.length + w.length ≤ fuel := by omega
    obtain ⟨f3, hf3, hineq, hnewlen⟩ := insert_fuel_spec d w fuel hlen
    rw [List.foldl_cons]
    simp only [from_dictionary_fuel_go, hf3]
    exact ih (insert d w) f3 (by omega)

/-- C6: for every finite input sequence of words, including sequences that
violate the strictly-ascending-order precondition, from_dictionary
terminates: twice the total byte count of the input is enough fuel for
every loop iteration of insert, minimize_until and add_suffix together with
the final flush. -/
theorem construction_terminates (ws : List Word) :
    from_dictionary_fuel (2 * total_len ws) ws = some (from_dictionary ws) := by
  rw [from_dictionary_fuel]
  have h := fuel_go_enough ws empty_dagger (2 * total_len ws) (by
    rw [show empty_dagger.unminimized_path = [] from rfl]
    simp)
  rw [h, from_dictionary]

/-! ### Registry immutability -/

theorem reg_ne_below {A : List vertex} {path : List (Nat × Nat)} {reg : List Nat}
    (hinv : Inv A path reg) {x : Nat} (hx : x ∈ reg) : x ≠ below path := by
  cases path with
  | nil =>
    intro h
    have h0 : x = 0 := h
    exact hinv.reg_not_root (h0 ▸ hx)
  | cons e t =>
    obtain ⟨p, pc⟩ := e
    intro h
    refine hinv.reg_path_disj x hx ?_
    rw [List.map_cons, h]
    exact List.mem_cons_self _ _

theorem add_chain_getV :
    ∀ (suffix : List Nat) (parent : Nat) (A : List vertex)
      (path : List (Nat × Nat)) (x : Nat),
      x < A.length → x ≠ parent →
      getV (add_chain suffix parent A path).1 x = getV A x := by
  intro suffix
  induction suffix with
  | nil =>
    intro parent A path x _ _
    rw [add_chain]
  | cons c rest ih =>
    intro parent A path x hx hxp
    rw [add_chain]
    rw [ih _ _ _ x (by rw [length_fresh]; omega) (by omega)]
    exact getV_fresh_old c hx hxp

theorem add_chain_last_ge :
    ∀ (suffix : List Nat) (parent : Nat) (A : List vertex)
      (path : List (Nat × Nat)), suffix ≠ [] →
      A.length ≤ (add_chain suffix parent A path).2.2 := by
  intro suffix
  induction suffix with
  | nil => intro parent A path h; exact absurd rfl h
  | cons c rest ih =>
    intro parent A path _
    rw [add_chain]
    cases rest with
    | nil =>
      rw [add_chain]
    | cons c2 rest2 =>
      have := ih A.length
        (update_edge (A ++ [⟨[], false⟩]) parent c A.length) ((A.length, c) :: path)
        (by simp)
      rw [length_fresh] at this
      omega

theorem insert_reg_preserve {d : dagger} {ws : List Word} (w : Word)
    (hg : Good d ws) :
    ∀ x ∈ d.minimized_vertices, x ∈ (insert d w).minimized_vertices ∧
      getV (insert d w).arena x = getV d.arena x := by
  obtain ⟨pw, A, path, reg⟩ := d
  obtain ⟨m1, m2, m3, m4, m5, m6⟩ :=
    minimize_go_master (common_prefix_len pw w) path A reg hg.inv (good_path_lang hg)
  rcases hmin : minimize_go (common_prefix_len pw w) path A reg with ⟨A1, reg1, path1⟩
  rw [hmin] at m1 m2 m3 m4 m5 m6
  rcases hcr : add_chain (w.drop (common_prefix_len pw w)) (below path1) A1 path1
    with ⟨A2, path2, last⟩
  have hins : insert ⟨pw, A, path, reg⟩ w = ⟨w, mark_end A2 last, path2, reg1⟩ := by
    rw [insert_unfold]
    simp only [hmin]
    simp only [hcr]
  intro x hx
  obtain ⟨hx1, hrec1⟩ := m3 x hx
  have hxlt : x < A1.length := m1.reg_lt x hx1
  have hxb : x ≠ below path1 := reg_ne_below m1 hx1
  have hrec2 : getV A2 x = getV A1 x := by
    have := add_chain_getV (w.drop (common_prefix_len pw w)) (below path1) A1 path1
      x hxlt hxb
    rw [hcr] at this
    exact this
  have hxlast : x ≠ last := by
    cases hsuf : w.drop (common_prefix_len pw w) with
    | nil =>
      rw [hsuf, add_chain] at hcr
      have hlast : last = below path1 :=
        (congrArg (fun z : List vertex × List (Nat × Nat) × Nat => z.2.2) hcr).symm
      rw [hlast]
      exact hxb
    | cons c0 rest0 =>
      have hge := add_chain_last_ge (w.drop (common_prefix_len pw w)) (below path1) A1 path1
        (by rw [hsuf]; simp)
      rw [hcr] at hge
      have hge2 : A1.length ≤ last := hge
      omega
  have hrec3 : getV (mark_end A2 last) x = getV A2 x := by
    rw [mark_end]
    by_cases hl : last < A2.length
    · exact getV_setV_ne _ _ _ _ hxlast
    · rw [setV_default _ _ _ (by omega)]
  rw [hins]
  refine ⟨hx1, ?_⟩
  show getV (mark_end A2 last) x = getV A x
  have hrec1b : getV A1 x = getV A x := hrec1
  rw [hrec3, hrec2, hrec1b]

/-- C8: throughout construction, once a vertex has been inserted into the
registry it is never removed and its record (transitions and accepting
flag) is never mutated: this holds across the minimize_until loop, across
any insertion, and across the final flush.  Moreover whenever the registry
is queried for equivalence the probed vertex is the top of the path, and
every transition target of the top of the path already refers to a registry
vertex, so the non-recursive comparison by identity of targets is valid. -/
theorem registry_immutable :
    (∀ (A : List vertex) (path : List (Nat × Nat)) (reg : List Nat) (u : Nat),
      Inv A path reg →
      (∀ p ∈ path.map Prod.fst, ∃ w, accepts A p w = true) →
      ∀ x ∈ reg, x ∈ (minimize_go u path A reg).2.1 ∧
        getV (minimize_go u path A reg).1 x = getV A x) ∧
    (∀ (A : List vertex) (path : List (Nat × Nat)) (reg : List Nat)
      (v c : Nat) (rest : List (Nat × Nat)),
      Inv A path reg → path = (v, c) :: rest →
      ∀ e ∈ (getV A v).edges, e.2 ∈ reg) ∧
    (∀ (d : dagger) (ws : List Word) (w : Word), Good d ws →
      ∀ x ∈ d.minimized_vertices, x ∈ (insert d w).minimized_vertices ∧
        getV (insert d w).arena x = getV d.arena x) ∧
    (∀ (d : dagger) (ws : List Word), Good d ws →
      ∀ x ∈ d.minimized_vertices,
        x ∈ (finish_minimization d).minimized_vertices ∧
        getV (finish_minimization d).arena x = getV d.arena x) := by
  refine ⟨?_, ?_, ?_, ?_⟩
  · intro A path reg u hinv hpl
    exact (minimize_go_master u path A reg hinv hpl).2.2.1
  · intro A path reg v c rest hinv hpath e he
    have := hinv.top_closed
    rw [hpath] at this
    exact this e he
  · intro d ws w hg
    exact insert_reg_preserve w hg
  · intro d ws hg x hx
    obtain ⟨pw, A, path, reg⟩ := d
    have := (minimize_go_master 0 path A reg hg.inv (good_path_lang hg)).2.2.1 x hx
    exact this

theorem registry_immutable_witness :
    1 ∈ ([[0], [1]].foldl insert empty_dagger).minimized_vertices ∧
    1 ∈ (insert ([[0], [1]].foldl insert empty_dagger) [2]).minimized_vertices ∧
    getV (insert ([[0], [1]].foldl insert empty_dagger) [2]).arena 1
      = getV ([[0], [1]].foldl insert empty_dagger).arena 1 := by
  have hmem : 1 ∈ ([[0], [1]].foldl insert empty_dagger).minimized_vertices := by decide
  have h := registry_immutable.2.2.1 ([[0], [1]].foldl insert empty_dagger)
    [[0], [1]] [2] (good_fold [[0], [1]] (by decide)) 1 hmem
  exact ⟨hmem, h.1, h.2⟩

/-! ### Minimality: order lemmas -/

theorem lex_lt_irrefl : ∀ a : Word, lex_lt a a = false := by
  intro a
  induction a with
  | nil => rfl
  | cons x xs ih => rw [lex_lt]; simp [ih]

theorem lex_lt_trans : ∀ a : Word, ∀ b c : Word,
    lex_lt a b = true → lex_lt b c = true → lex_lt a c = true := by
  intro a
  induction a with
  | nil =>
    intro b c h1 h2
    cases c with
    | nil =>
      cases b with
      | nil => exact absurd h1 (by simp [lex_lt])
      | cons y ys => exact absurd h2 (by simp [lex_lt])
    | cons z zs => rfl
  | cons x xs ih =>
    intro b c h1 h2
    cases b with
    | nil => simp [lex_lt] at h1
    | cons y ys =>
      cases c with
      | nil => simp [lex_lt] at h2
      | cons z zs =>
        rw [lex_lt] at h1 h2 ⊢
        simp at h1 h2 ⊢
        rcases h1 with h1 | ⟨rfl, h1⟩
        · rcases h2 with h2 | ⟨rfl, h2⟩
          · exact Or.inl (lt_trans h1 h2)
          · exact Or.inl h1
        · rcases h2 with h2 | ⟨rfl, h2⟩
          · exact Or.inl h2
          · exact Or.inr ⟨rfl, ih ys zs h1 h2⟩

theorem lex_lt_asymm {a b : Word} (h1 : lex_lt a b = true)
    (h2 : lex_lt b a = true) : False := by
  have := lex_lt_trans a b a h1 h2
  rw [lex_lt_irrefl] at this
  exact absurd this (by simp)

theorem pairwise_of_sorted_words : ∀ ws : List Word, sorted_words ws = true →
    List.Pairwise (fun a b => lex_lt a b = true) ws := by
  intro ws
  induction ws with
  | nil => intro _; exact List.Pairwise.nil
  | cons w1 rest ih =>
    intro h
    cases rest with
    | nil => exact List.pairwise_singleton _ _
    | cons w2 t =>
      rw [sorted_words] at h
      simp at h
      obtain ⟨h1, h2⟩ := h
      have hp2 := ih h2
      refine List.pairwise_cons.mpr ⟨?_, hp2⟩
      intro v hv
      rcases List.mem_cons.mp hv with rfl | hv
      · exact h1
      · exact lex_lt_trans w1 w2 v h1 ((List.pairwise_cons.mp hp2).1 v hv)

theorem sorted_mem_ext : ∀ l1 l2 : List Word,
    List.Pairwise (fun a b => lex_lt a b = true) l1 →
    List.Pairwise (fun a b => lex_lt a b = true) l2 →
    (∀ x, x ∈ l1 ↔ x ∈ l2) → l1 = l2 := by
  intro l1
  induction l1 with
  | nil =>
    intro l2 _ _ hm
    cases l2 with
    | nil => rfl
    | cons b t2 => exact absurd ((hm b).mpr (List.mem_cons_self b t2)) (by simp)
  | cons a t1 ih =>
    intro l2 hp1 hp2 hm
    cases l2 with
    | nil => exact absurd ((hm a).mp (List.mem_cons_self a t1)) (by simp)
    | cons b t2 =>
      obtain ⟨ha1, ht1⟩ := List.pairwise_cons.mp hp1
      obtain ⟨hb2, ht2⟩ := List.pairwise_cons.mp hp2
      have hab : a = b := by
        rcases List.mem_cons.mp ((hm a).mp (List.mem_cons_self a t1)) with h | hat2
        · exact h
        rcases List.mem_cons.mp ((hm b).mpr (List.mem_cons_self b t2)) with h | hbt1
        · exact h.symm
        exact absurd (lex_lt_asymm (ha1 b hbt1) (hb2 a hat2)) not_false
      subst hab
      have hmt : ∀ x, x ∈ t1 ↔ x ∈ t2 := by
        intro x
        constructor
        · intro hx
          rcases List.mem_cons.mp ((hm x).mp (List.mem_cons_of_mem a hx)) with h | h
          · exfalso
            have hlt := ha1 x hx
            rw [h, lex_lt_irrefl] at hlt
            exact absurd hlt (by simp)
          · exact h
        · intro hx
          rcases List.mem_cons.mp ((hm x).mpr (List.mem_cons_of_mem a hx)) with h | h
          · exfalso
            have hlt := hb2 x hx
            rw [h, lex_lt_irrefl] at hlt
            exact absurd hlt (by simp)
          · exact h
      rw [ih t2 ht1 ht2 hmt]

/-! ### Minimality: residual lemmas -/

theorem pref_of_append : ∀ p t : Word, pref_of p (p ++ t) = true := by
  intro p t
  induction p with
  | nil => rfl
  | cons a p ih => simp [pref_of, ih]

theorem pref_of_drop : ∀ p w : Word, pref_of p w = true →
    p ++ w.drop p.length = w := by
  intro p
  induction p with
  | nil => intro w _; simp
  | cons a p ih =>
    intro w h
    cases w with
    | nil => simp [pref_of] at h
    | cons b w =>
      rw [pref_of] at h
      simp at h
      obtain ⟨rfl, h2⟩ := h
      simp only [List.length_cons, List.drop_succ_cons, List.cons_append]
      rw [ih w h2]

theorem mem_left_residual {ws : List Word} {p t : Word} :
    t ∈ left_residual ws p ↔ p ++ t ∈ ws := by
  rw [left_residual, List.mem_filterMap]
  constructor
  · rintro ⟨w, hw, hf⟩
    by_cases hp : pref_of p w = true
    · rw [if_pos hp] at hf
      have ht : w.drop p.length = t := Option.some.inj hf
      rw [← ht, pref_of_drop p w hp]
      exact hw
    · rw [if_neg hp] at hf
      simp at hf
  · intro h
    refine ⟨p ++ t, h, ?_⟩
    rw [if_pos (pref_of_append p t), List.drop_left]

theorem lex_lt_drop : ∀ p u v : Word, pref_of p u = true → pref_of p v = true →
    lex_lt u v = true → lex_lt (u.drop p.length) (v.drop p.length) = true := by
  intro p
  induction p with
  | nil => intro u v _ _ h; simpa using h
  | cons a p ih =>
    intro u v hu hv h
    cases u with
    | nil => simp [pref_of] at hu
    | cons b u =>
      cases v with
      | nil => simp [pref_of] at hv
      | cons c v =>
        rw [pref_of] at hu hv
        simp at hu hv
        obtain ⟨rfl, hu2⟩ := hu
        obtain ⟨rfl, hv2⟩ := hv
        rw [lex_lt] at h
        simp at h
        simp only [List.length_cons, List.drop_succ_cons]
        exact ih u v hu2 hv2 (by simpa using h)

theorem residual_pairwise {ws : List Word} (p : Word)
    (h : List.Pairwise (fun a b => lex_lt a b = true) ws) :
    List.Pairwise (fun a b => lex_lt a b = true) (left_residual ws p) := by
  induction ws with
  | nil => exact List.Pairwise.nil
  | cons w t ih =>
    obtain ⟨hhead, htail⟩ := List.pairwise_cons.mp h
    rw [left_residual, List.filterMap_cons]
    by_cases hp : pref_of p w = true
    · rw [if_pos hp]
      refine List.pairwise_cons.mpr ⟨?_, ih htail⟩
      intro x hx
      obtain ⟨v, hv, hf⟩ := List.mem_filterMap.mp hx
      by_cases hpv : pref_of p v = true
      · rw [if_pos hpv] at hf
        rw [← Option.some.inj hf]
        exact lex_lt_drop p w v hp hpv (hhead v hv)
      · rw [if_neg hpv] at hf
        simp at hf
    · rw [if_neg hp]
      exact ih htail

theorem len_le_total {ws : List Word} {u : Word} (h : u ∈ ws) :
    u.length ≤ total_len ws := by
  induction ws with
  | nil => simp at h
  | cons w t ih =>
    rw [total_len_cons]
    rcases List.mem_cons.mp h with rfl | h
    · omega
    · have := ih h
      omega

/-! ### Minimality: states of the finished automaton -/

theorem reach_states {A : List vertex} {reg : List Nat} (hinv : Inv A [] reg) :
    ∀ (s : Word) (q : Nat), walk A 0 s = some q → q = 0 ∨ q ∈ reg := by
  intro s q hw
  cases s with
  | nil => exact Or.inl (Option.some.inj hw).symm
  | cons c rest =>
    rw [walk] at hw
    cases hl : lookupE (getV A 0).edges c with
    | none => rw [hl] at hw; exact absurd hw (by simp)
    | some j =>
      rw [hl] at hw
      have hj : j ∈ reg := hinv.top_closed (c, j) (lookupE_mem hl)
      exact Or.inr (walk_closed hinv.reg_closed rest j hj q hw)

theorem walk_prefix_some {A : List vertex} {i : Nat} {s t : Word}
    (h : accepts A i (s ++ t) = true) : ∃ q, walk A i s = some q := by
  rw [accepts_append] at h
  cases hw : walk A i s with
  | none => rw [hw] at h; simp at h
  | some q => exact ⟨q, rfl⟩

theorem root_reg_distinct {A : List vertex} {reg : List Nat} {ws : List Word}
    (hinv : Inv A [] reg) (hlang : ∀ s, accepts A 0 s = true ↔ s ∈ ws)
    {q : Nat} (hq : q ∈ reg) : ∃ t, accepts A 0 t ≠ accepts A q t := by
  by_contra hcon
  push_neg at hcon
  obtain ⟨s, hs⟩ := hinv.reg_reach q hq
  obtain ⟨w0, hw0⟩ := hinv.reg_lang q hq
  have hsne : s ≠ [] := by
    intro h
    rw [h, walk] at hs
    exact hinv.reg_not_root ((Option.some.inj hs) ▸ hq)
  have hstep : ∀ t, accepts A 0 (s ++ t) = accepts A q t := by
    intro t
    rw [accepts_append, hs]
    rfl
  have hpump : ∀ k : Nat, ∃ u, accepts A 0 u = true ∧ k ≤ u.length := by
    intro k
    induction k with
    | zero => exact ⟨w0, by rw [hcon w0]; exact hw0, Nat.zero_le _⟩
    | succ n ihp =>
      obtain ⟨u, hu1, hu2⟩ := ihp
      refine ⟨s ++ u, ?_, ?_⟩
      · rw [hstep u, ← hcon u]
        exact hu1
      · rw [List.length_append]
        have : 0 < s.length := List.length_pos.mpr hsne
        omega
  obtain ⟨u, hu1, hu2⟩ := hpump (total_len ws + 1)
  have hmem : u ∈ ws := (hlang u).mp hu1
  have := len_le_total hmem
  omega

/-! ### Minimality: counting by a language relation -/

theorem length_eq_of_rel {α β : Type} [DecidableEq α] [DecidableEq β]
    [Inhabited α] [Inhabited β]
    (L1 : List α) (L2 : List β) (R : α → β → Prop)
    (h1 : L1.Nodup) (h2 : L2.Nodup)
    (ha : ∀ q ∈ L1, ∃ r ∈ L2, R q r)
    (hb : ∀ r ∈ L2, ∃ q ∈ L1, R q r)
    (hinj1 : ∀ q ∈ L1, ∀ q2 ∈ L1, ∀ r ∈ L2, R q r → R q2 r → q = q2)
    (hinj2 : ∀ q ∈ L1, ∀ r ∈ L2, ∀ r2 ∈ L2, R q r → R q r2 → r = r2) :
    L1.length = L2.length := by
  classical
  rw [← List.toFinset_card_of_nodup h1, ← List.toFinset_card_of_nodup h2]
  apply le_antisymm
  · refine Finset.card_le_card_of_injOn
      (fun q => if h : ∃ r ∈ L2, R q r then h.choose else default) ?_ ?_
    · intro q hq
      have hq1 : q ∈ L1 := List.mem_toFinset.mp hq
      have h := ha q hq1
      simp only [dif_pos h]
      exact List.mem_toFinset.mpr h.choose_spec.1
    · intro q hq q2 hq2 heq
      have hq1 : q ∈ L1 := by simpa using hq
      have hq21 : q2 ∈ L1 := by simpa using hq2
      have h := ha q hq1
      have h2b := ha q2 hq21
      simp only [dif_pos h, dif_pos h2b] at heq
      have hr2 : R q2 h.choose := by rw [heq]; exact h2b.choose_spec.2
      exact hinj1 q hq1 q2 hq21 h.choose h.choose_spec.1 h.choose_spec.2 hr2
  · refine Finset.card_le_card_of_injOn
      (fun r => if h : ∃ q ∈ L1, R q r then h.choose else default) ?_ ?_
    · intro r hr
      have hr1 : r ∈ L2 := List.mem_toFinset.mp hr
      have h := hb r hr1
      simp only [dif_pos h]
      exact List.mem_toFinset.mpr h.choose_spec.1
    · intro r hr r2 hr2 heq
      have hr1 : r ∈ L2 := by simpa using hr
      have hr21 : r2 ∈ L2 := by simpa using hr2
      have h := hb r hr1
      have h2b := hb r2 hr21
      simp only [dif_pos h, dif_pos h2b] at heq
      have hq2 : R h.choose r2 := by rw [heq]; exact h2b.choose_spec.2
      exact hinj2 h.choose h.choose_spec.1 r hr1 r2 hr21 h.choose_spec.2 hq2

/-- C3: for every finite, strictly ascending input sequence, the number of
distinct vertices in the built automaton (the canonical vertices in the
registry plus the root) equals the number of states of the theoretical
minimal deterministic finite automaton accepting exactly the input
language. -/
theorem minimality (ws : List Word) (hs : sorted_words ws = true) :
    (from_dictionary ws).minimized_vertices.length + 1 = minimal_dfa_states ws := by
  obtain ⟨hInv0, hpath0, hlang0⟩ := good_finish (good_fold ws hs)
  have hInv1 : Inv (from_dictionary ws).arena (from_dictionary ws).unminimized_path
      (from_dictionary ws).minimized_vertices := hInv0
  have hpath : (from_dictionary ws).unminimized_path = [] := hpath0
  have hlang : ∀ s, accepts (from_dictionary ws).arena 0 s = true ↔ s ∈ ws := hlang0
  set A := (from_dictionary ws).arena with hA
  set reg := (from_dictionary ws).minimized_vertices with hreg
  have hInv : Inv A [] reg := by rw [← hpath]; exact hInv1
  have hpw : List.Pairwise (fun a b => lex_lt a b = true) ws :=
    pairwise_of_sorted_words ws hs
  rw [minimal_dfa_states]
  refine length_eq_of_rel (0 :: reg)
    ((([] :: ws.flatMap (fun w => w.inits)).map (left_residual ws)).dedup)
    (fun q r => ∀ t, (accepts A q t = true ↔ t ∈ r)) ?_ ?_ ?_ ?_ ?_ ?_
  · exact List.nodup_cons.mpr ⟨hInv.reg_not_root, hInv.reg_nodup⟩
  · exact List.nodup_dedup _
  · intro q hq
    rcases List.mem_cons.mp hq with rfl | hq
    · refine ⟨left_residual ws [], ?_, ?_⟩
      · exact List.mem_dedup.mpr
          (List.mem_map_of_mem _ (List.mem_cons_self _ _))
      · intro t
        rw [mem_left_residual, List.nil_append]
        exact hlang t
    · obtain ⟨s, hsw⟩ := hInv.reg_reach q hq
      obtain ⟨w0, hw0⟩ := hInv.reg_lang q hq
      have hstep : ∀ t, accepts A 0 (s ++ t) = accepts A q t := by
        intro t
        rw [accepts_append, hsw]
        rfl
      have hsw0 : s ++ w0 ∈ ws := (hlang _).mp (by rw [hstep]; exact hw0)
      refine ⟨left_residual ws s, ?_, ?_⟩
      · refine List.mem_dedup.mpr (List.mem_map_of_mem _ (List.mem_cons_of_mem _ ?_))
        rw [List.mem_flatMap]
        exact ⟨s ++ w0, hsw0, (List.mem_inits s (s ++ w0)).mpr ⟨w0, rfl⟩⟩
      · intro t
        rw [mem_left_residual, ← hstep t]
        exact hlang _
  · intro r hr
    obtain ⟨p, hp, rfl⟩ := List.mem_map.mp (List.mem_dedup.mp hr)
    rcases List.mem_cons.mp hp with rfl | hp
    · refine ⟨0, List.mem_cons_self _ _, ?_⟩
      intro t
      rw [mem_left_residual, List.nil_append]
      exact hlang t
    · rw [List.mem_flatMap] at hp
      obtain ⟨w, hw, hpi⟩ := hp
      obtain ⟨t0, ht0⟩ := (List.mem_inits p w).mp hpi
      have hacc : accepts A 0 (p ++ t0) = true := by
        rw [ht0]
        exact (hlang w).mpr hw
      obtain ⟨q, hq⟩ := walk_prefix_some hacc
      have hstep : ∀ t, accepts A 0 (p ++ t) = accepts A q t := by
        intro t
        rw [accepts_append, hq]
        rfl
      refine ⟨q, ?_, ?_⟩
      · rcases reach_states hInv p q hq with rfl | h
        · exact List.mem_cons_self _ _
        · exact List.mem_cons_of_mem _ h
      · intro t
        rw [mem_left_residual, ← hstep t]
        exact hlang _
  · intro q hq q2 hq2 r hr hRq hRq2
    by_contra hne
    have hdist : ∃ t, accepts A q t ≠ accepts A q2 t := by
      rcases List.mem_cons.mp hq with rfl | hqr
      · rcases List.mem_cons.mp hq2 with rfl | hq2r
        · exact absurd rfl hne
        · exact root_reg_distinct hInv hlang hq2r
      · rcases List.mem_cons.mp hq2 with rfl | hq2r
        · obtain ⟨t, ht⟩ := root_reg_distinct hInv hlang hqr
          exact ⟨t, Ne.symm ht⟩
        · exact hInv.reg_distinct q hqr q2 hq2r hne
    obtain ⟨t, ht⟩ := hdist
    apply ht
    by_cases hx : t ∈ r
    · rw [(hRq t).mpr hx, (hRq2 t).mpr hx]
    · have e1 : accepts A q t = false := by
        cases hb1 : accepts A q t with
        | false => rfl
        | true => exact absurd ((hRq t).mp hb1) hx
      have e2 : accepts A q2 t = false := by
        cases hb2 : accepts A q2 t with
        | false => rfl
        | true => exact absurd ((hRq2 t).mp hb2) hx
      rw [e1, e2]
  · intro q hq r hr r2 hr2 hRr hRr2
    have hsorted : ∀ r0 ∈ (([] :: ws.flatMap (fun w => w.inits)).map
        (left_residual ws)).dedup, List.Pairwise (fun a b => lex_lt a b = true) r0 := by
      intro r0 h0
      obtain ⟨p, -, rfl⟩ := List.mem_map.mp (List.mem_dedup.mp h0)
      exact residual_pairwise p hpw
    refine sorted_mem_ext r r2 (hsorted r hr) (hsorted r2 hr2) ?_
    intro x
    exact ⟨fun hx => (hRr2 x).mp ((hRr x).mpr hx),
      fun hx => (hRr x).mp ((hRr2 x).mpr hx)⟩

theorem minimality_witness :
    sorted_words [[0, 1], [1]] = true ∧
    (from_dictionary [[0, 1], [1]]).minimized_vertices.length + 1 =
      minimal_dfa_states [[0, 1], [1]] :=
  ⟨by decide, minimality [[0, 1], [1]] (by decide)⟩

end doom
